import Mathlib

/-!
Shallow embedding of the meta-revision engine of the NeuralLog repository
(`src/knowledge/theory/manager/revision/operator/meta_revision_operator.py`),
together with the parts of the term/clause substrate it relies on.

The term and clause value types, `get_term_from_string`, `get_unify_map`,
the name generators, `FALSE_LITERAL`, `TRUE_ATOM`, the builtin
predicate table and the tree/theory collaborators live in repository modules
that are not available under `src/`; those are modelled from the
specification and are marked `Modelled from the spec:` in their doc comments.
Everything else is translated directly from `meta_revision_operator.py`.

Numeric weights and provenance annotations are omitted from the value types:
no modelled operation branches on them.  Python exceptions are modelled by
an explicit error type; generator functions that can raise mid-iteration are
modelled as a pair of the yielded prefix and an optional error.
-/

/-- Modelled from the spec: the term model of `src/language/language.py`
(absent from `src/`): a tagged variant over constants, logic variables and quoted
literals.  A quoted literal keeps its quote character and its inner text. -/
inductive Term where
  | const (name : String)
  | var (name : String)
  | quote (q : String) (value : String)
deriving DecidableEq, Repr

/-- A predicate is a name with an arity; arity `-1` denotes "any arity". -/
structure Predicate where
  name : String
  arity : Int
deriving DecidableEq, Repr

/-- An atom: a predicate applied to an ordered list of terms. -/
structure Atom where
  predicate : Predicate
  terms : List Term
deriving DecidableEq, Repr

/-- A literal: an atom with a negation flag. -/
structure Literal where
  atom : Atom
  negated : Bool
deriving DecidableEq, Repr

def Literal.predicate (l : Literal) : Predicate := l.atom.predicate

def Literal.terms (l : Literal) : List Term := l.atom.terms

/-- A Horn clause: a head atom and an ordered body of literals. -/
structure HornClause where
  head : Atom
  body : List Literal
deriving DecidableEq, Repr

/-- A clause of a produced program: either a Horn clause or an atom clause
(a fact). -/
inductive Clause where
  | horn (c : HornClause)
  | atomC (a : Atom)
deriving DecidableEq, Repr

/-- Modelled from the spec: `get_term_from_string` of the absent language
module.  A name whose first character is an upper-case letter parses as a
`Variable`; any other name parses as a `Constant`.  (The name
pattern `[A-Z][a-zA-Z0-9_-]*` of `META_PREDICATE_TYPE_MATCH` in the source
confirms the upper-case convention.) -/
def get_term_from_string (s : String) : Term :=
  match s.data with
  | [] => .const s
  | c :: _ => if c.isUpper then .var s else .const s

/-- `True` iff the string parses as a `Variable` term. -/
def isVariableName (s : String) : Bool :=
  match get_term_from_string s with
  | .var _ => true
  | _ => false

/-- Modelled from the spec: `Term.get_name` of the absent language module;
the canonical value of the term. -/
def Term.get_name : Term → String
  | .const n => n
  | .var n => n
  | .quote _ v => v

/-- `VARIABLE_PREDICATE_NAME = "A"` (source line 28). -/
def VARIABLE_PREDICATE_NAME : String := "A"

/-- Modelled from the spec: the universal "true" atom
(`NeuralLogProgram.TRUE_ATOM`, absent from `src/`). -/
def TRUE_ATOM : Atom := ⟨⟨"true", 0⟩, []⟩

/-- Modelled from the spec: the trivially-false body literal
(`FALSE_LITERAL` of `src/knowledge/manager/tree_manager.py`, absent from
`src/`): the literal `false()`. -/
def FALSE_LITERAL : Literal := ⟨⟨⟨"false", 0⟩, []⟩, false⟩

/-- Modelled from the spec: the fixed set of reserved builtin directive
predicate names (`NeuralLogProgram.BUILTIN_PREDICATES`, absent from
`src/`); `learn` is the directive the meta-program analysis branches on. -/
def BUILTIN_PREDICATES : List String :=
  ["learn", "example", "mega_example", "set_parameter",
   "set_predicate_parameter"]

/-- Modelled from the spec: `NeuralLogProgram.LEARN_BUILTIN_PREDICATE`. -/
def LEARN_BUILTIN_PREDICATE : String := "learn"

/-- Python exceptions crossing the modelled code, plus the revision wrapper. -/
inductive PyErr where
  | knowledgeError (msg : String)
  | theoryRevisionError (msg : String) (cause : PyErr)
  | initError (msg : String)
  | typeError (msg : String)
  | keyError
  | valueError
  | indexError
deriving DecidableEq, Repr

/-- Modelled from the spec: `get_predicate_from_string` of the absent
program module: parses `"name/arity"` into a predicate, or just a name into
an any-arity (`-1`) predicate. -/
def get_predicate_from_string (s : String) : Except PyErr Predicate :=
  match s.splitOn "/" with
  | [n] => .ok ⟨n, -1⟩
  | [n, a] =>
    match a.toNat? with
    | some k => .ok ⟨n, (k : Int)⟩
    | none => .error .valueError
  | _ => .error .valueError

/-- Last-binding lookup in an association list, matching the Python `dict`
built from a sequence of pairs (later entries override earlier ones). -/
def pyDictGet {α β : Type} [DecidableEq α] (l : List (α × β)) (k : α) :
    Option β :=
  match l with
  | [] => none
  | (k', v) :: rest =>
    match pyDictGet rest k with
    | some v' => some v'
    | none => if k' = k then some v else none


/-- Insertion into an `OrderedSet`/`set`: adds the element only when it is
not yet present (insertion order preserved). -/
def addUnique {α : Type} [DecidableEq α] (l : List α) (x : α) : List α :=
  if x ∈ l then l else l ++ [x]

/-- `OrderedSet.update`: adds each element in turn, skipping duplicates. -/
def addAllUnique {α : Type} [DecidableEq α] (l : List α) (xs : List α) :
    List α :=
  xs.foldl addUnique l

/-- The captured groups of a full match of `META_PREDICATE_TYPE_MATCH`
(source lines 30-32): group 1 (the referenced name), group 3 (the arity
digits), group 5 (the argument index digits) and group 7 (the constant). -/
structure MetaPatternGroups where
  name : String
  arityStr : Option String
  argument : Option String
  constant : Option String
deriving DecidableEq, Repr

/-- A character of the tail of a meta-pattern referenced name
(`[a-zA-Z0-9_-]`). -/
def isMetaNameChar (c : Char) : Bool :=
  c.isAlpha || c.isDigit || c = '_' || c = '-'

/-- Full match of the regular expression `META_PREDICATE_TYPE_MATCH`,
`\$([A-Z][a-zA-Z0-9_-]*)(/([0-9]|[1-9][0-9]+))?(\[([0-9]+)\](\[(.+)\])?)?`,
rendered as a deterministic parser: the name may not be followed by a name
character, the arity digits may not be followed by a digit, and the final
constant group consumes everything up to the closing bracket that ends the
string, with `.` excluding newlines. -/
def metaPatternFullMatch (s : String) : Option MetaPatternGroups :=
  match s.data with
  | '$' :: c :: rest =>
    if c.isUpper then
      let nameTail := rest.takeWhile isMetaNameChar
      let afterName := rest.drop nameTail.length
      let name := String.mk (c :: nameTail)
      let (arityStr, afterArity) :=
        match afterName with
        | '/' :: r =>
          let digits := r.takeWhile Char.isDigit
          (some digits, some (r.drop digits.length))
        | _ => (none, some afterName)
      match afterArity with
      | none => none
      | some rest2 =>
        let arityOk :=
          match arityStr with
          | none => true
          | some [] => false
          | some (d :: ds) => ds.isEmpty || d ≠ '0'
        if ¬ arityOk then none
        else
          let arity := arityStr.map String.mk
          match rest2 with
          | [] => some ⟨name, arity, none, none⟩
          | '[' :: r3 =>
            let idx := r3.takeWhile Char.isDigit
            if idx.isEmpty then none
            else
              match r3.drop idx.length with
              | ']' :: r5 =>
                match r5 with
                | [] => some ⟨name, arity, some (String.mk idx), none⟩
                | '[' :: r6 =>
                  if r6.length ≥ 2 ∧ r6.getLast? = some ']' ∧
                      (r6.dropLast.all (· ≠ '\n')) then
                    some ⟨name, arity, some (String.mk idx),
                          some (String.mk r6.dropLast)⟩
                  else none
                | _ => none
              | _ => none
          | _ => none
    else none
  | _ => none

/-- `replace_variable_terms` (source lines 152-202): rewrites quoted
meta-predicate references and substituted `Variable` terms.  A quoted
reference to a name absent from `varMap` (the Python `variables` dict) raises `KeyError`. -/
def replace_variable_terms (terms : List Term)
    (varMap : List (Term × String)) (arities : List (Term × Int)) :
    Except PyErr (List Term) :=
  match terms with
  | [] => .ok []
  | term :: rest => do
    let newTerm ←
      match term with
      | .quote q v =>
        match metaPatternFullMatch v with
        | none => pure (Term.quote q v)
        | some groups =>
          let varTerm := Term.var groups.name
          match pyDictGet varMap varTerm with
          | none => Except.error PyErr.keyError
          | some pname => do
            let arityPart ←
              match groups.arityStr with
              | some a => pure a
              | none =>
                match pyDictGet arities varTerm with
                | some k => pure (toString k)
                | none => Except.error PyErr.keyError
            let argPart :=
              match groups.argument with
              | none => ""
              | some idx =>
                "[" ++ idx ++ "]" ++
                  (match groups.constant with
                   | none => ""
                   | some c => "[" ++ c ++ "]")
            pure (Term.quote q ("$" ++ pname ++ "/" ++ arityPart ++ argPart))
      | .var _ =>
        match pyDictGet varMap term with
        | none => pure term
        | some pname =>
          let arity := (pyDictGet arities term).getD (-1)
          pure (Term.quote "\"" (pname ++ "/" ++ toString arity))
      | _ => pure term
    let newRest ← replace_variable_terms rest varMap arities
    pure (newTerm :: newRest)

/-- A trainable-predicate entry: the bare name for any-arity predicates,
or the exact predicate for fixed-arity ones. -/
abbrev TrainRef : Type := Sum String Predicate

/-- The state built by `MetaProgram.__init__`/`_create_meta_program`
(source lines 205-287). -/
structure MetaProgram where
  head_predicates : List Predicate
  body_predicates : List Predicate
  trainable_predicate : List TrainRef
  builtin_facts : List Literal
  clauses : List HornClause
deriving DecidableEq

/-- One body literal step of `_create_meta_program` (source lines 260-276):
builtin literals are diverted to `builtin_facts` (with `learn` directives
resolved into `trainable_predicate`, raising `IndexError` on an argument-less
`learn`); other literals are kept, collecting the variable-named predicates. -/
def metaBodyStep (st : MetaProgram × List Literal × List Predicate)
    (literal : Literal) :
    Except PyErr (MetaProgram × List Literal × List Predicate) :=
  match st with
  | (mp, body, bodyVars) =>
    if literal.predicate.name ∈ BUILTIN_PREDICATES then
      if literal.predicate.name = LEARN_BUILTIN_PREDICATE then
        match literal.terms with
        | [] => .error .indexError
        | t :: _ => do
          let p ← get_predicate_from_string t.get_name
          pure
            ({ mp with
               builtin_facts := addUnique mp.builtin_facts literal,
               trainable_predicate := addUnique mp.trainable_predicate
                 (if p.arity < 0 then Sum.inl p.name else Sum.inr p) },
             body, bodyVars)
      else
        pure ({ mp with builtin_facts := addUnique mp.builtin_facts literal },
              body, bodyVars)
    else
      pure (mp, body ++ [literal],
        if isVariableName literal.predicate.name then
          addUnique bodyVars literal.predicate
        else bodyVars)

/-- One clause step of `_create_meta_program` (source lines 257-285). -/
def metaClauseStep (mp : MetaProgram) (clause : HornClause) :
    Except PyErr MetaProgram := do
  match ← clause.body.foldlM metaBodyStep (mp, [], []) with
  | (mp1, body, bodyVars) =>
    pure
      { head_predicates :=
          if isVariableName clause.head.predicate.name ∧
              clause.head.predicate ∉ bodyVars then
            addUnique mp1.head_predicates clause.head.predicate
          else mp1.head_predicates,
        body_predicates := addAllUnique mp1.body_predicates bodyVars,
        trainable_predicate := mp1.trainable_predicate,
        builtin_facts := mp1.builtin_facts,
        clauses := addUnique mp1.clauses ⟨clause.head, body⟩ }

/-- `MetaProgram.__init__` followed by `_create_meta_program` (source lines
210-287): processes every clause, then removes the head predicates from the
body predicates. -/
def createMetaProgram (metaClauses : List HornClause)
    (trainablePredicates : List TrainRef) : Except PyErr MetaProgram := do
  let mp ← metaClauses.foldlM metaClauseStep
    (⟨[], [], trainablePredicates.foldl addUnique [], [], []⟩ : MetaProgram)
  pure { mp with
         body_predicates :=
           mp.body_predicates.filter (· ∉ mp.head_predicates) }

/-- `Atom(new_predicate, *new_terms)` where `new_predicate` is either a
substituted name (a Python string, so the atom's predicate gets the new term
count as arity) or the original predicate object (kept unchanged). -/
def mkAtomFromPy (sub : Option String) (p : Predicate) (ts : List Term) :
    Atom :=
  match sub with
  | some s => ⟨⟨s, (ts.length : Int)⟩, ts⟩
  | none => ⟨p, ts⟩

/-- The `(Variable, arity, value)` that
`MetaProgram.apply_substitution` derives from a substitution
(source lines 300-306). -/
def substitutionTriples (substitution : List (Predicate × String)) :
    List (Term × Int × String) :=
  substitution.filterMap (fun ps =>
    match get_term_from_string ps.1.name with
    | .var v => some (Term.var v, ps.1.arity, ps.2)
    | _ => none)

/-- The rewrite of one retained clause inside
`MetaProgram.apply_substitution` (source lines 309-328): substituted
terms are filtered out of the head and of every body literal, quoted
references are rewritten, and body atoms equal to `TRUE_ATOM` are dropped. -/
def applySubstitutionToClause (substitution : List (Predicate × String))
    (varMap : List (Term × String)) (arities : List (Term × Int))
    (clause : HornClause) : Except PyErr HornClause := do
  let newBody ← clause.body.foldlM
    (fun acc literal => do
      let newTerms ← replace_variable_terms
        (literal.terms.filter (fun t => (pyDictGet varMap t).isNone))
        varMap arities
      if mkAtomFromPy (pyDictGet substitution literal.predicate)
          literal.predicate newTerms = TRUE_ATOM then pure acc
      else
        pure (acc ++ [Literal.mk
          (mkAtomFromPy (pyDictGet substitution literal.predicate)
            literal.predicate newTerms) literal.negated]))
    []
  pure ⟨mkAtomFromPy (pyDictGet substitution clause.head.predicate)
      clause.head.predicate
      (clause.head.terms.filter (fun t => (pyDictGet varMap t).isNone)),
    newBody⟩

/-- The `(Variable, value)` entries of the Python `variables` dict of
`apply_substitution` (source line 306). -/
def substitutionVarMap (substitution : List (Predicate × String)) :
    List (Term × String) :=
  (substitutionTriples substitution).map (fun t => (t.1, t.2.2))

/-- The `(Variable, arity)` entries of the Python `arities` dict of
`apply_substitution` (source line 305). -/
def substitutionArities (substitution : List (Predicate × String)) :
    List (Term × Int) :=
  (substitutionTriples substitution).map (fun t => (t.1, t.2.1))

/-- `MetaProgram.apply_substitution` (source lines 289-339). -/
def MetaProgram.apply_substitution (mp : MetaProgram)
    (substitution : List (Predicate × String)) :
    Except PyErr (List Clause) := do
  let fromClauses ← mp.clauses.foldlM
    (fun acc clause => do
      let c ← applySubstitutionToClause substitution
        (substitutionVarMap substitution) (substitutionArities substitution)
        clause
      pure (addUnique acc (Clause.horn c)))
    []
  mp.builtin_facts.foldlM
    (fun acc lit => do
      let newTerms ← replace_variable_terms lit.atom.terms
        (substitutionVarMap substitution) (substitutionArities substitution)
      pure (addUnique acc (Clause.atomC
        (mkAtomFromPy (pyDictGet substitution lit.atom.predicate)
          lit.atom.predicate newTerms))))
    fromClauses

/-- Modelled from the spec: the predicate-name generator of
`src/util/variable_generator.py` (absent from `src/`): yields fresh names
guaranteed distinct from the avoid set; `clean_copy` resets generation
state while remembering the names to avoid. -/
structure PredicateGenerator where
  avoid : List String
  counter : Nat
deriving DecidableEq, Repr

/-- The deterministic candidate stream of the modelled name generator. -/
def predicateCandidate (i : Nat) : String := "p" ++ toString i

def PredicateGenerator.next (g : PredicateGenerator) :
    String × PredicateGenerator :=
  match (List.range (g.avoid.length + 1)).find?
      (fun j => ¬ g.avoid.contains (predicateCandidate (g.counter + j))) with
  | some j => (predicateCandidate (g.counter + j), ⟨g.avoid, g.counter + j + 1⟩)
  | none =>
    (predicateCandidate (g.counter + g.avoid.length + 1),
     ⟨g.avoid, g.counter + g.avoid.length + 2⟩)

/-- `clean_copy`: the per-node generator restarts from the untouched
generator's state. -/
def PredicateGenerator.clean_copy (g : PredicateGenerator) :
    PredicateGenerator := ⟨g.avoid, g.counter⟩

/-- Modelled from the spec: `PermutationGenerator` (absent from `src/`)
enumerates the full cross-product of the candidate-value lists, values
paired positionally with the fixed ordering of the predicate variables. -/
def cartesianProduct {α : Type} : List (List α) → List (List α)
  | [] => [[]]
  | l :: ls => l.flatMap (fun v => (cartesianProduct ls).map (fun vs => v :: vs))

/-- The trailing loop of `MetaProgram.first_order_programs` (source lines
377-379): applies the substitutions one by one, as a generator that stops
at the first raised error, keeping the previously yielded programs. -/
def collectPrograms (mp : MetaProgram) :
    List (List (Predicate × String)) → List (List Clause) × Option PyErr
  | [] => ([], none)
  | s :: rest =>
    match mp.apply_substitution s with
    | .error e => ([], some e)
    | .ok prog =>
      let (ps, e) := collectPrograms mp rest
      (prog :: ps, e)

/-- The head-predicate loop of `MetaProgram.first_order_programs` (source
lines 353-360): each head predicate must be invented, so its candidate list
is a single fresh name. -/
def headPredicateLoop (g : PredicateGenerator) (heads : List Predicate) :
    List Predicate × List (List String) × List String × PredicateGenerator :=
  heads.foldl
    (fun st p =>
      let (vt, pt, ft, g) := st
      let (name, g') := g.next
      (vt ++ [p], pt ++ [[name]], ft ++ [name], g'))
    ([], [], [], g)

/-- The body-predicate loop of `MetaProgram.first_order_programs` (source
lines 362-375): a fresh name is offered only for trainable predicates, every
same-arity existing predicate is offered, and every head-invented name is
always offered. -/
def bodyPredicateLoop (mp : MetaProgram) (logicPredicates : List Predicate)
    (fixedTerms : List String) (g : PredicateGenerator)
    (start : List Predicate × List (List String)) :
    List Predicate × List (List String) :=
  let res := mp.body_predicates.foldl
    (fun st p =>
      let (vt, pt, g) := st
      let (fromTrainable, g') :=
        if mp.trainable_predicate.contains (Sum.inr p) ||
            mp.trainable_predicate.contains (Sum.inl p.name) then
          let (e, g'') := g.next
          ([e], g'')
        else ([], g)
      let perms := logicPredicates.foldl
        (fun acc lp => if p.arity = lp.arity then addUnique acc lp.name else acc)
        (fromTrainable.foldl addUnique [])
      let perms := addAllUnique perms fixedTerms
      (vt ++ [p], pt ++ [perms], g'))
    (start.1, start.2, g)
  (res.1, res.2.1)

/-- `MetaProgram.first_order_programs` (source lines 342-379): builds the
candidate-value list per predicate variable and yields the program of every
joint substitution. -/
def MetaProgram.first_order_programs (mp : MetaProgram)
    (logicPredicates : List Predicate) (g : PredicateGenerator) :
    List (List Clause) × Option PyErr :=
  let (variableTerms, permutationTerms, fixedTerms, g') :=
    headPredicateLoop g mp.head_predicates
  let (variableTerms, permutationTerms) :=
    bodyPredicateLoop mp logicPredicates fixedTerms g'
      (variableTerms, permutationTerms)
  let substitutions :=
    (cartesianProduct permutationTerms).map (fun vals => variableTerms.zip vals)
  collectPrograms mp substitutions

/-- Modelled from the spec: the deep-copyable theory object
(`NeuralLogProgram`, absent from `src/`): its clauses plus the predicate
partitions the operator reads.  `copy` is value copying; `add_clauses`
appends. -/
structure Theory where
  clauses : List Clause
  logic_predicates : List Predicate
  functional_predicates : List Predicate
  trainable_predicates : List Predicate
deriving DecidableEq, Repr

def Theory.add_clauses (t : Theory) (cs : List Clause) : Theory :=
  { t with clauses := t.clauses ++ cs }

/-- `current_theory.clauses_by_predicate[clause.head.predicate]
.remove(clause)` (source lines 804-805): `KeyError` when no rule with that
head predicate exists, `ValueError` when the clause itself is absent,
otherwise the first occurrence of the clause is removed. -/
def Theory.removeRuleOf (t : Theory) (c : HornClause) : Except PyErr Theory :=
  let sameHead := t.clauses.any (fun cl =>
    match cl with
    | .horn hc => hc.head.predicate = c.head.predicate
    | .atomC _ => false)
  if ¬ sameHead then .error .keyError
  else if (Clause.horn c) ∈ t.clauses then
    .ok { t with clauses := t.clauses.erase (Clause.horn c) }
  else .error .valueError

/-- Modelled from the spec: the slice of the tree-theory revision node
(`Node[HornClause]` of `src/knowledge/manager/tree_manager.py`, absent from
`src/`) that the operator reads: the root / default-child flags, the node's
clause and its parent's clause. -/
structure RevisionLeaf where
  is_root : Bool
  is_default_child : Bool
  element : HornClause
  parent_element : HornClause
deriving DecidableEq, Repr

/-- `_build_root_node_theory` (source lines 718-744): rejects a trivially
false first clause, otherwise appends the modified first clause and the rest
of the program to a copy of the theory. -/
def build_root_node_theory {Ex : Type}
    (modifiers : HornClause → List Ex → HornClause) (theory : Theory)
    (program : List Clause) (revisionLeaf : RevisionLeaf) (targets : List Ex) :
    Except PyErr (Option Theory) :=
  match program with
  | [] => .error .indexError
  | first :: rest =>
    match first with
    | .atomC _ => .error (.typeError "AtomClause has no body attribute")
    | .horn fc =>
      if FALSE_LITERAL ∈ fc.body then .ok none
      else
        let newClause := modifiers fc targets
        .ok (some (theory.add_clauses ([Clause.horn newClause] ++ rest)))

/-- `_build_false_leaf_theory` (source lines 746-779): rejects a trivially
false or still-placeholder first clause, otherwise appends the first
clause's body to a copy of the parent's clause and adds it with the rest of
the program. -/
def build_false_leaf_theory {Ex : Type}
    (modifiers : HornClause → List Ex → HornClause) (theory : Theory)
    (program : List Clause) (revisionLeaf : RevisionLeaf) (targets : List Ex) :
    Except PyErr (Option Theory) :=
  match program with
  | [] => .error .indexError
  | first :: rest =>
    match first with
    | .atomC _ => .error (.typeError "AtomClause has no body attribute")
    | .horn fc =>
      if FALSE_LITERAL ∈ fc.body then .ok none
      else if VARIABLE_PREDICATE_NAME ∈ fc.body.map (fun l => l.predicate.name)
      then .ok none
      else
        let newClause :=
          { revisionLeaf.parent_element with
            body := revisionLeaf.parent_element.body ++ fc.body }
        let newClause := modifiers newClause targets
        .ok (some (theory.add_clauses ([Clause.horn newClause] ++ rest)))

/-- `_build_literal_leaf_theory` (source lines 781-828): skips placeholder
programs, removes the parent clause from the theory copy, and then either
keeps that removal (trivially false derived body) or enters the
literal-replacement branch, whose first statement is
`new_clause.body.remove()` — a `list.remove` call with no argument, which
raises `TypeError` before anything else happens. -/
def build_literal_leaf_theory {Ex : Type}
    (modifiers : HornClause → List Ex → HornClause) (theory : Theory)
    (program : List Clause) (revisionLeaf : RevisionLeaf) (targets : List Ex) :
    Except PyErr (Option Theory) :=
  match program with
  | [] => .error .indexError
  | first :: rest =>
    match first with
    | .atomC _ => .error (.typeError "AtomClause has no body attribute")
    | .horn fc =>
      if VARIABLE_PREDICATE_NAME ∈ fc.body.map (fun l => l.predicate.name)
      then .ok none
      else do
        let originalClause := revisionLeaf.parent_element
        let currentTheory ← theory.removeRuleOf originalClause
        if FALSE_LITERAL ∈ fc.body then
          pure (some currentTheory)
        else if fc.head.predicate.name ≠ VARIABLE_PREDICATE_NAME then
          Except.error (PyErr.typeError "list.remove takes exactly one argument")
        else
          let newClause :=
            { originalClause with body := originalClause.body ++ fc.body }
          let newClause := modifiers newClause targets
          pure (some (currentTheory.add_clauses
            ([Clause.horn newClause] ++ rest)))

/-- Refinement comparison definition, following the spec's words for the
literal-leaf strategy on a trivially false derived body (not the source):
"the literal (or the whole clause, if that literal was the clause's only
body literal) is removed outright". -/
def literalLeafSpecTheory (theory : Theory) (originalClause : HornClause)
    (lit : Literal) : Theory :=
  if originalClause.body = [lit] then
    { theory with clauses := theory.clauses.erase (Clause.horn originalClause) }
  else
    { theory with clauses :=
        (theory.clauses.erase (Clause.horn originalClause)) ++
          [Clause.horn
            { originalClause with body := originalClause.body.erase lit }] }

/-- One-way unification of the paired terms of a pattern atom against a
goal atom: a pattern variable binds to the goal term (consistently), any
other pattern term must equal the goal term. -/
def unifyTermPairs : List (Term × Term) → List (Term × Term) →
    Option (List (Term × Term))
  | [], acc => some acc
  | (p, g) :: rest, acc =>
    match p with
    | .var _ =>
      match pyDictGet acc p with
      | some bound => if bound = g then unifyTermPairs rest acc else none
      | none => unifyTermPairs rest (acc ++ [(p, g)])
    | _ => if p = g then unifyTermPairs rest acc else none

/-- Modelled from the spec: `get_unify_map` of `src/util/language.py`
(absent from `src/`): fails when predicates or arities differ incompatibly
or a variable would need two different bindings; on success returns the
minimal substitution mapping pattern-side variables (including the
pattern's predicate-as-term, when its name is a variable) to goal-side
terms. -/
def get_unify_map (pattern goal : Atom) : Option (List (Term × Term)) :=
  if pattern.terms.length ≠ goal.terms.length then none
  else
    let start :=
      if pattern.predicate = goal.predicate then some []
      else
        match get_term_from_string pattern.predicate.name with
        | .var v =>
          if pattern.predicate.arity = goal.predicate.arity then
            some [(Term.var v, get_term_from_string goal.predicate.name)]
          else none
        | _ => none
    match start with
    | none => none
    | some acc => unifyTermPairs (pattern.terms.zip goal.terms) acc

/-- Modelled from the spec: the variable-name generator of
`src/util/variable_generator.py` (absent from `src/`): yields fresh
variable names distinct from the supplied avoid set of terms. -/
structure VariableGenerator where
  avoid : List Term
  counter : Nat
deriving DecidableEq, Repr

/-- The deterministic candidate stream of the modelled variable generator;
the names are upper-case, so they parse back as variables. -/
def variableCandidate (i : Nat) : String := "V" ++ toString i

def VariableGenerator.next (g : VariableGenerator) :
    String × VariableGenerator :=
  match (List.range (g.avoid.length + 1)).find?
      (fun j =>
        ¬ g.avoid.contains (Term.var (variableCandidate (g.counter + j)))) with
  | some j =>
    (variableCandidate (g.counter + j), ⟨g.avoid, g.counter + j + 1⟩)
  | none =>
    (variableCandidate (g.counter + g.avoid.length + 1),
     ⟨g.avoid, g.counter + g.avoid.length + 2⟩)

/-- `check_if_predicates_unify` (source lines 37-62).  The Python function
falls off the end (returning the falsy `None`) when the predicate name is
constant; the call site only tests truthiness, so that case is `false`. -/
def check_if_predicates_unify (predicate goal : Predicate)
    (unify_constant_predicate : Bool) : Bool :=
  if predicate = goal then true
  else if predicate.arity ≠ goal.arity then false
  else
    match get_term_from_string predicate.name with
    | .var _ => unify_constant_predicate || isVariableName goal.name
    | _ => false

/-- A node of the SLD-resolution tree (source class `SLDNode`, lines
68-133): its open-goal values, the clause applied to reach it, and the
(shared) parent.  The `children` index of the source is display-only
bookkeeping and is not part of the model; node identity in the claims is
positional (membership in the yielded sequence). -/
inductive SLDNode where
  | root (values : List Atom) (appliedClause : Option HornClause)
  | child (values : List Atom) (appliedClause : Option HornClause)
      (parent : SLDNode)
deriving DecidableEq

def SLDNode.values : SLDNode → List Atom
  | .root v _ => v
  | .child v _ _ => v

def SLDNode.appliedClause : SLDNode → Option HornClause
  | .root _ c => c
  | .child _ c _ => c

def SLDNode.parent : SLDNode → Option SLDNode
  | .root _ _ => none
  | .child _ _ p => some p

/-- The number of parent links above the node: its distance from the root. -/
def SLDNode.depth : SLDNode → Nat
  | .root _ _ => 0
  | .child _ _ p => p.depth + 1

/-- `SLDNode._get_used_variables` (source lines 92-108): the variable
terms used by the node's values, including variable predicate names. -/
def usedVariables (values : List Atom) : List Term :=
  values.foldl
    (fun acc atom =>
      let acc :=
        match get_term_from_string atom.predicate.name with
        | .var v => addUnique acc (Term.var v)
        | _ => acc
      atom.terms.foldl
        (fun a t => match t with | .var _ => addUnique a t | _ => a) acc)
    []

/-- `SLDNode.avoiding_terms` (source lines 110-121): the node's used
variables united with every ancestor's. -/
def SLDNode.avoidingTerms : SLDNode → List Term
  | .root v _ => usedVariables v
  | .child v _ p => addAllUnique (usedVariables v) p.avoidingTerms

/-- `extract_meta_program` (source lines 136-149): walks the parent chain
while an applied clause is present, prepending each clause. -/
def extract_meta_program (node : SLDNode) : List HornClause :=
  match node with
  | .root _ none => []
  | .root _ (some c) => [c]
  | .child _ none _ => []
  | .child _ (some c) p => extract_meta_program p ++ [c]

/-- The renaming state of one clause application (the Python `substitution`
dict, split into its predicate-keyed and term-keyed entries) together with
the per-goal variable generator. -/
structure RenameState where
  preds : List (Predicate × Predicate)
  terms : List (Term × Term)
  gen : VariableGenerator

/-- The body-literal renaming step of `apply_clause_to_node` (source lines
433-463): an unbound variable predicate or variable term that clashes with
the avoiding terms is renamed freshly; every binding is recorded so later
occurrences rename consistently. -/
def renameLiteral (avoid : List Term) (st : RenameState) (literal : Literal) :
    Literal × RenameState :=
  let predicate := literal.predicate
  let (renamedPredicate, st) :=
    match pyDictGet st.preds predicate with
    | some rp => (rp, st)
    | none =>
      let (rp, gen') :=
        match get_term_from_string predicate.name with
        | .var v =>
          if (Term.var v) ∈ avoid then
            let (n, g') := st.gen.next
            (Predicate.mk n predicate.arity, g')
          else (predicate, st.gen)
        | _ => (predicate, st.gen)
      (rp,
       { st with
         preds := st.preds ++ [(predicate, rp)],
         terms := st.terms ++
           [(get_term_from_string predicate.name,
             get_term_from_string rp.name)],
         gen := gen' })
  let (renamedTerms, st) := literal.terms.foldl
    (fun acc term =>
      let (ts, st) := acc
      match pyDictGet st.terms term with
      | some rt => (ts ++ [rt], st)
      | none =>
        let (rt, gen') :=
          match term with
          | .var _ =>
            if term ∈ avoid then
              let (n, g') := st.gen.next
              (Term.var n, g')
            else (term, st.gen)
          | _ => (term, st.gen)
        (ts ++ [rt],
         { st with terms := st.terms ++ [(term, rt)], gen := gen' }))
    ([], st)
  (Literal.mk (Atom.mk renamedPredicate renamedTerms) literal.negated, st)

/-- One goal position of `apply_clause_to_node` (source lines 417-474):
either the clause does not apply there (`none`), or a new child node is
built, or the final head-term lookup `substitution[term]` raises
`KeyError` (a head term that is neither a pattern variable nor mentioned
in the body is never entered into the dict). -/
def applyAtGoal (node : SLDNode) (clause : HornClause) (ucp : Bool)
    (avoid : List Term) (i : Nat) : Except PyErr (Option SLDNode) :=
  match node.values.get? i with
  | none => .ok none
  | some goal =>
    if ¬ check_if_predicates_unify clause.head.predicate goal.predicate ucp
    then .ok none
    else
      match get_unify_map (Atom.mk goal.predicate clause.head.terms) goal with
      | none => .ok none
      | some sub =>
        match clause.body.foldl
          (fun acc lit =>
            let (ls, st) := acc
            let (rl, st') := renameLiteral avoid st lit
            (ls ++ [rl], st'))
          ([], (⟨[(clause.head.predicate, goal.predicate)],
                sub ++
                  [(get_term_from_string clause.head.predicate.name,
                    get_term_from_string goal.predicate.name)],
                VariableGenerator.mk avoid 0⟩ : RenameState)) with
        | (renamedBody, st) =>
          match clause.head.terms.mapM (fun t => pyDictGet st.terms t) with
          | none => .error .keyError
          | some renamedHeadTerms =>
            .ok (some (SLDNode.child
              (node.values.take i ++ renamedBody.map (fun l => l.atom) ++
                node.values.drop (i + 1))
              (some (HornClause.mk (Atom.mk goal.predicate renamedHeadTerms)
                renamedBody))
              node))

/-- The goal loop of `apply_clause_to_node`: yields one node per goal that
unifies, in goal order; a raised error ends the generator, keeping the
earlier yields. -/
def collectGoalYields (node : SLDNode) (clause : HornClause) (ucp : Bool)
    (avoid : List Term) : List Nat → List SLDNode × Option PyErr
  | [] => ([], none)
  | i :: rest =>
    match applyAtGoal node clause ucp avoid i with
    | .error e => ([], some e)
    | .ok none => collectGoalYields node clause ucp avoid rest
    | .ok (some n) =>
      let (ns, e) := collectGoalYields node clause ucp avoid rest
      (n :: ns, e)

/-- `apply_clause_to_node` (source lines 399-474). -/
def apply_clause_to_node (node : SLDNode) (clause : HornClause) (ucp : Bool) :
    List SLDNode × Option PyErr :=
  collectGoalYields node clause ucp node.avoidingTerms
    (List.range node.values.length)

/-- Yields `f x` for every `x` in order, stopping at the first error while
keeping the prefix already yielded (Python generator semantics). -/
def yieldAll {α β : Type} (xs : List α) (f : α → List β × Option PyErr) :
    List β × Option PyErr :=
  match xs with
  | [] => ([], none)
  | x :: rest =>
    let (ys, e) := f x
    match e with
    | some err => (ys, some err)
    | none =>
      let (zs, e') := yieldAll rest f
      (ys ++ zs, e')

/-- The expansion of one dequeued node: every meta clause applied to it
with `unify_constant_predicate = False` (source lines 1045-1049). -/
def expandNode (metaClauses : List HornClause) (n : SLDNode) :
    List SLDNode × Option PyErr :=
  yieldAll metaClauses (fun c => apply_clause_to_node n c false)

/-- The inner loop of `apply_higher_order_program` (source lines
1043-1049): pops `size` nodes from the front of the deque, appending and
yielding every produced node; popping an empty deque raises `IndexError`. -/
def processNodes (metaClauses : List HornClause) :
    Nat → List SLDNode → List SLDNode × List SLDNode × Option PyErr
  | 0, q => ([], q, none)
  | _ + 1, [] => ([], [], some .indexError)
  | k + 1, cur :: rest =>
    let (children, err) := expandNode metaClauses cur
    match err with
    | some e => (children, rest ++ children, some e)
    | none =>
      let (emitted, finalQ, e') := processNodes metaClauses k (rest ++ children)
      (children ++ emitted, finalQ, e')

/-- The outer loop of `apply_higher_order_program` (source lines
1041-1049): `maximum_depth - 1` further levels, each dequeuing exactly as
many nodes as the deque holds when the level starts. -/
def outerLevels (metaClauses : List HornClause) :
    Nat → List SLDNode → List SLDNode × Option PyErr
  | 0, _ => ([], none)
  | d + 1, queue =>
    let (emitted, q', err) := processNodes metaClauses queue.length queue
    match err with
    | some e => (emitted, some e)
    | none =>
      let (more, e') := outerLevels metaClauses d q'
      (emitted ++ more, e')

/-- `apply_higher_order_program` (source lines 1023-1049): the root holds a
copy of the target atom; the first expansion applies every meta clause to
the root with `unify_constant_predicate = True` and runs regardless of the
configured maximum depth; `maximum_depth - 1` further breadth-first levels
follow (`range(-1)` is empty, and so is the truncated `0 - 1` here). -/
def apply_higher_order_program (metaClauses : List HornClause)
    (maximumDepth : Nat) (targetAtom : Atom) : List SLDNode × Option PyErr :=
  match yieldAll metaClauses
    (fun c =>
      apply_clause_to_node (SLDNode.root [targetAtom] none) c true) with
  | (level1, some e) => (level1, some e)
  | (level1, none) =>
    match outerLevels metaClauses (maximumDepth - 1) level1 with
    | (more, e') => (level1 ++ more, e')

/-- Modelled from the spec: one edge of the rule dependency graph
(`RuleGraph` of `src/knowledge/graph.py`, absent from `src/`), with the
accessors `_build_target_atom` reads. -/
structure RuleEdge where
  literal : Literal
  output_term : Term
  input_terms : List Term
deriving DecidableEq, Repr

/-- The external collaborators and configuration of `MetaRevisionOperator`
(learning system, metric, evaluator, tree theory, clause modifiers and the
rule-graph finder), modelled from the spec as abstract functions.  Examples
are atoms (the source's example iterator yields atoms); inferred values and
scores are abstract. -/
structure LearningCtx (Inf Score : Type) where
  meta_clauses : List HornClause
  maximum_depth : Nat
  theory : Theory
  kb_logic_predicates : List Predicate
  kb_functional_predicates : List Predicate
  kb_trainable_predicates : List Predicate
  get_revision_leaf : RevisionLeaf
  get_target_predicate : Predicate
  infer_examples : List Atom → Option Theory → Except PyErr Inf
  compute_metric : List Atom → Inf → Except PyErr Score
  compare : Score → Score → Rat
  evaluate_theory : List Atom → Theory → Except PyErr Score
  evaluate_theory_appending : List Atom → List Clause → Except PyErr Score
  apply_clause_modifiers : HornClause → List Atom → HornClause
  is_positive : Atom → Bool
  contains_example : Inf → Atom → Bool
  build_program : Theory → Except PyErr Theory
  find_clause_paths : HornClause → List RuleEdge

/-- The mutable operator fields set by `_update_logic_predicates` (source
lines 540-564) and read by the search. -/
structure FieldState where
  logic_predicates : List Predicate
  generic_trainable_predicates : List TrainRef
  avoid_predicates : List String
deriving DecidableEq, Repr

/-- `_update_logic_predicates` (source lines 540-564): the generic
trainable predicates stay empty (the filling code is commented out in the
source); the avoid set is every logic/functional/trainable predicate name
of the knowledge base and of the theory. -/
def update_logic_predicates {Inf Score : Type} (ctx : LearningCtx Inf Score)
    (theory : Theory) : FieldState :=
  { logic_predicates :=
      addAllUnique (addAllUnique [] ctx.kb_logic_predicates)
        theory.logic_predicates,
    generic_trainable_predicates := [],
    avoid_predicates :=
      [ctx.kb_logic_predicates, ctx.kb_functional_predicates,
       ctx.kb_trainable_predicates, theory.logic_predicates,
       theory.functional_predicates,
       theory.trainable_predicates].foldl
        (fun acc ps => ps.foldl (fun a p => addUnique a p.name) acc) [] }

def Literal.arity (l : Literal) : Nat := l.atom.terms.length

/-- The edge loop of `_build_target_atom` (source lines 636-643): the first
edge producing the output term whose first input term occurs in the last
literal supplies the input term; otherwise the default stands. -/
def findInputTerm (outputTerm : Term) (lastLit : Literal) :
    List RuleEdge → Term → Except PyErr Term
  | [], dflt => .ok dflt
  | e :: rest, dflt =>
    if e.literal.arity ≠ 2 ∨ outputTerm ≠ e.output_term then
      findInputTerm outputTerm lastLit rest dflt
    else
      match e.input_terms with
      | [] => .error .indexError
      | pi :: _ =>
        if pi ∈ lastLit.terms then .ok pi
        else findInputTerm outputTerm lastLit rest dflt

/-- `_build_target_atom` (source lines 590-645). -/
def build_target_atom {Inf Score : Type} (ctx : LearningCtx Inf Score)
    (rl : RevisionLeaf) : Except PyErr Atom := do
  let hc := if rl.is_default_child then rl.parent_element else rl.element
  match hc.body.getLast?, hc.head.terms.getLast? with
  | none, _ => Except.error PyErr.indexError
  | some _, none => Except.error PyErr.indexError
  | some lastLit, some outputTerm =>
    let arity := lastLit.arity
    if arity = 0 ∨ outputTerm ∈ lastLit.terms then pure lastLit.atom
    else if arity ≠ 2 then
      match lastLit.terms.getLast? with
      | none => Except.error PyErr.indexError
      | some t =>
        pure (Atom.mk ⟨VARIABLE_PREDICATE_NAME, 2⟩ [t, outputTerm])
    else
      match lastLit.terms.getLast? with
      | none => Except.error PyErr.indexError
      | some dflt => do
        let inputTerm ←
          findInputTerm outputTerm lastLit (ctx.find_clause_paths hc) dflt
        pure (Atom.mk ⟨VARIABLE_PREDICATE_NAME, 2⟩ [inputTerm, outputTerm])

/-- `True` when the candidate program clears the guard of the search loops
(source lines 690, 997): nonempty with a Horn first clause. -/
def progAdmissible (prog : List Clause) : Bool :=
  match prog with
  | .horn _ :: _ => true
  | _ => false

/-- The inner candidate loop of `revise_node` (source lines 687-713):
either an early return with a theory (threshold mode) or the running best
evaluation and theory. -/
def programsLoop {Inf Score : Type} (ctx : LearningCtx Inf Score)
    (rl : RevisionLeaf) (targets : List Atom) (minThr : Option Rat)
    (etf : List Clause → RevisionLeaf → List Atom →
      Except PyErr (Option Theory)) :
    List (List Clause) → Score → Option Theory →
    Except PyErr (Sum Theory (Score × Option Theory))
  | [], bestE, bestT => .ok (.inr (bestE, bestT))
  | prog :: rest, bestE, bestT =>
    if ¬ progAdmissible prog then
      programsLoop ctx rl targets minThr etf rest bestE bestT
    else do
      match ← etf prog rl targets with
      | none => programsLoop ctx rl targets minThr etf rest bestE bestT
      | some currentTheory => do
        let evaluation ← ctx.evaluate_theory targets currentTheory
        match minThr with
        | none =>
          if 0 < ctx.compare evaluation bestE then
            programsLoop ctx rl targets minThr etf rest evaluation
              (some currentTheory)
          else programsLoop ctx rl targets minThr etf rest bestE bestT
        | some thr =>
          if thr < ctx.compare evaluation bestE then .ok (.inl currentTheory)
          else programsLoop ctx rl targets minThr etf rest bestE bestT

/-- The node loop of `revise_node` (source lines 679-713): per node, a
fresh clean-copied predicate generator, the extracted meta program, and the
candidate loop over its first-order programs; an error raised by the
first-order generator surfaces after the yielded programs are consumed. -/
def nodesLoop {Inf Score : Type} (ctx : LearningCtx Inf Score)
    (fs : FieldState) (rl : RevisionLeaf) (targets : List Atom)
    (minThr : Option Rat)
    (etf : List Clause → RevisionLeaf → List Atom →
      Except PyErr (Option Theory)) (cleanGen : PredicateGenerator) :
    List SLDNode → Score → Option Theory →
    Except PyErr (Sum Theory (Score × Option Theory))
  | [], bestE, bestT => .ok (.inr (bestE, bestT))
  | node :: rest, bestE, bestT => do
    let mp ← createMetaProgram (extract_meta_program node)
      fs.generic_trainable_predicates
    match mp.first_order_programs fs.logic_predicates
        cleanGen.clean_copy with
    | (programs, fopErr) =>
      match ← programsLoop ctx rl targets minThr etf programs bestE
          bestT with
      | .inl t => pure (.inl t)
      | .inr (bE, bT) =>
        match fopErr with
        | some e => Except.error e
        | none => nodesLoop ctx fs rl targets minThr etf cleanGen rest bE bT

/-- `revise_node` (source lines 647-715). -/
def revise_node {Inf Score : Type} (ctx : LearningCtx Inf Score)
    (fs : FieldState) (targetAtom : Atom) (targets : List Atom)
    (minThr : Option Rat)
    (etf : List Clause → RevisionLeaf → List Atom →
      Except PyErr (Option Theory)) : Except PyErr (Option Theory) := do
  let inferred ← ctx.infer_examples targets none
  let currentEvaluation ← ctx.compute_metric targets inferred
  match apply_higher_order_program ctx.meta_clauses ctx.maximum_depth
      targetAtom with
  | (nodes, genErr) =>
    match ← nodesLoop ctx fs ctx.get_revision_leaf targets minThr etf
        ⟨fs.avoid_predicates, 0⟩ nodes currentEvaluation none with
    | .inl t => pure (some t)
    | .inr (_, bestT) =>
      match genErr with
      | some e => Except.error e
      | none => pure bestT

/-- `perform_operation_on_tree` (source lines 830-864): no exception
handling — whatever `revise_node` raises propagates to the caller
unchanged. -/
def perform_operation_on_tree {Inf Score : Type} (ctx : LearningCtx Inf Score)
    (fs : FieldState) (targets : List Atom) (minThr : Option Rat) :
    Except PyErr (Option Theory) := do
  let rl := ctx.get_revision_leaf
  if rl.is_root then
    let ta := Atom.mk ctx.get_target_predicate rl.element.head.terms
    revise_node ctx fs ta targets minThr
      (build_root_node_theory ctx.apply_clause_modifiers ctx.theory)
  else do
    let ta ← build_target_atom ctx rl
    if rl.is_default_child then
      revise_node ctx fs ta targets minThr
        (build_false_leaf_theory ctx.apply_clause_modifiers ctx.theory)
    else
      revise_node ctx fs ta targets minThr
        (build_literal_leaf_theory ctx.apply_clause_modifiers ctx.theory)

/-- The inner candidate loop of `build_program_from_target` (source lines
994-1019): the kept candidate is the modified first clause followed by the
rest of the program, deduplicated in order. -/
def bpftProgramsLoop {Inf Score : Type} (ctx : LearningCtx Inf Score)
    (targets : List Atom) (minThr : Option Rat) :
    List (List Clause) → Score → Option (List Clause) →
    Except PyErr (Sum (List Clause) (Score × Option (List Clause)))
  | [], bestE, bestP => .ok (.inr (bestE, bestP))
  | prog :: rest, bestE, bestP =>
    match prog with
    | .horn fc :: progRest => do
      let evaluation ← ctx.evaluate_theory_appending targets
        (addAllUnique
          [Clause.horn (ctx.apply_clause_modifiers fc targets)] progRest)
      match minThr with
      | none =>
        if 0 < ctx.compare evaluation bestE then
          bpftProgramsLoop ctx targets minThr rest evaluation
            (some (addAllUnique
              [Clause.horn (ctx.apply_clause_modifiers fc targets)]
              progRest))
        else bpftProgramsLoop ctx targets minThr rest bestE bestP
      | some thr =>
        if thr < ctx.compare evaluation bestE then
          .ok (.inl (addAllUnique
            [Clause.horn (ctx.apply_clause_modifiers fc targets)] progRest))
        else bpftProgramsLoop ctx targets minThr rest bestE bestP
    | _ => bpftProgramsLoop ctx targets minThr rest bestE bestP

/-- The node loop of `build_program_from_target` (source lines 986-1019). -/
def bpftNodesLoop {Inf Score : Type} (ctx : LearningCtx Inf Score)
    (fs : FieldState) (targets : List Atom) (minThr : Option Rat)
    (cleanGen : PredicateGenerator) :
    List SLDNode → Score → Option (List Clause) →
    Except PyErr (Sum (List Clause) (Score × Option (List Clause)))
  | [], bestE, bestP => .ok (.inr (bestE, bestP))
  | node :: rest, bestE, bestP => do
    let mp ← createMetaProgram (extract_meta_program node)
      fs.generic_trainable_predicates
    match mp.first_order_programs fs.logic_predicates
        cleanGen.clean_copy with
    | (programs, fopErr) =>
      match ← bpftProgramsLoop ctx targets minThr programs bestE bestP with
      | .inl p => pure (.inl p)
      | .inr (bE, bP) =>
        match fopErr with
        | some e => Except.error e
        | none => bpftNodesLoop ctx fs targets minThr cleanGen rest bE bP

/-- `build_program_from_target` (source lines 961-1021). -/
def build_program_from_target {Inf Score : Type}
    (ctx : LearningCtx Inf Score) (fs : FieldState) (targetAtom : Atom)
    (examples : List Atom) (currentEvaluation : Score)
    (minThr : Option Rat) : Except PyErr (Option (List Clause)) := do
  match apply_higher_order_program ctx.meta_clauses ctx.maximum_depth
      targetAtom with
  | (nodes, genErr) =>
    match ← bpftNodesLoop ctx fs examples minThr
        ⟨fs.avoid_predicates, 0⟩ nodes currentEvaluation none with
    | .inl p => pure (some p)
    | .inr (_, bestP) =>
      match genErr with
      | some e => Except.error e
      | none => pure bestP

/-- Modelled from the spec: `get_variable_atom` of the absent language
module: an atom of the predicate over fresh variable arguments. -/
def get_variable_atom (p : Predicate) : Atom :=
  ⟨p, (List.range p.arity.toNat).map (fun i => Term.var ("X" ++ toString i))⟩

/-- `True` for the exception classes caught by
`perform_operation_for_example` (source line 957). -/
def knowledgeOrInit : PyErr → Bool
  | .knowledgeError _ => true
  | .initError _ => true
  | _ => false

/-- `perform_operation_for_example` (source lines 911-959): knowledge and
initialization errors are swallowed (logged and `False` returned), every
other exception propagates; a mutation of the theory performed before a
swallowed error persists. -/
def perform_operation_for_example {Inf Score : Type}
    (ctx : LearningCtx Inf Score) (fs : FieldState) (exampleAtom : Atom)
    (theory : Theory) (targets : List Atom) (inferredExamples : Inf)
    (currentEvaluation : Score) (minThr : Option Rat) :
    Except PyErr (Bool × Theory) :=
  if ¬ ctx.is_positive exampleAtom ∨
      ctx.contains_example inferredExamples exampleAtom
  then .ok (false, theory)
  else
    match build_program_from_target ctx fs exampleAtom targets
        currentEvaluation minThr with
    | .error e => if knowledgeOrInit e then .ok (false, theory) else .error e
    | .ok none => .ok (false, theory)
    | .ok (some program) =>
      if program.isEmpty then .ok (false, theory)
      else
        let th2 := theory.add_clauses program
        match ctx.build_program th2 with
        | .error e => if knowledgeOrInit e then .ok (false, th2) else .error e
        | .ok th3 => .ok (true, th3)

/-- The mutable state threaded through the example loop of
`perform_operation_on_examples`. -/
structure ExamplesState (Inf Score : Type) where
  theory : Theory
  fs : FieldState
  inferred : Option Inf
  current_eval : Option Score

/-- The example loop of `perform_operation_on_examples` (source lines
885-906). -/
def examplesLoop {Inf Score : Type} (ctx : LearningCtx Inf Score)
    (targets : List Atom) (minThr : Option Rat) :
    List Atom → ExamplesState Inf Score →
    Except PyErr (ExamplesState Inf Score)
  | [], st => .ok st
  | ex :: rest, st => do
    let st ←
      match st.inferred with
      | none => do
        let inf ← ctx.infer_examples targets (some st.theory)
        let ev ← ctx.compute_metric targets inf
        pure { st with inferred := some inf, current_eval := some ev }
      | some _ => pure st
    match st.inferred, st.current_eval with
    | some inf, some ev =>
      if ¬ ctx.is_positive ex ∨ ctx.contains_example inf ex then
        examplesLoop ctx targets minThr rest st
      else do
        let target := get_variable_atom ex.predicate
        let (updated, th') ← perform_operation_for_example ctx st.fs target
          st.theory targets inf ev minThr
        if updated then
          examplesLoop ctx targets minThr rest
            { theory := th', fs := update_logic_predicates ctx th',
              inferred := none, current_eval := none }
        else
          examplesLoop ctx targets minThr rest { st with theory := th' }
    | _, _ => Except.error (PyErr.typeError "NoneType")

/-- The `except KnowledgeException` handler of
`perform_operation_on_examples` (source lines 908-909): a knowledge error
is re-raised as a `TheoryRevisionException` wrapping the cause; everything
else passes through. -/
def wrapRevisionError {α : Type} : Except PyErr α → Except PyErr α
  | .error (.knowledgeError m) =>
    .error (.theoryRevisionError "Error when revising the theory."
      (.knowledgeError m))
  | other => other

/-- `perform_operation_on_examples` (source lines 866-909): the whole body
runs under a handler that catches `KnowledgeException` and re-raises it as
a `TheoryRevisionException` wrapping the cause. -/
def perform_operation_on_examples {Inf Score : Type}
    (ctx : LearningCtx Inf Score) (targets : List Atom)
    (minThr : Option Rat) : Except PyErr Theory :=
  wrapRevisionError (do
    let theory := ctx.theory
    let fs := update_logic_predicates ctx theory
    let st ← examplesLoop ctx targets minThr targets ⟨theory, fs, none, none⟩
    pure st.theory)

/-- Level-structured reference description of the breadth-first search: one
level is expanded wholly (every meta clause, `unify_constant_predicate =
False`) before the next, for `d` levels, with Python generator error
semantics. -/
def levelsJoin (metaClauses : List HornClause) :
    Nat → List SLDNode → List SLDNode × Option PyErr
  | 0, _ => ([], none)
  | d + 1, level =>
    let (emitted, err) := yieldAll level (expandNode metaClauses)
    match err with
    | some e => (emitted, some e)
    | none =>
      let (more, e') := levelsJoin metaClauses d emitted
      (emitted ++ more, e')

/-- Level-structured reference description of
`apply_higher_order_program`: the first expansion applies every meta clause
to the root with `unify_constant_predicate = True`; `maximum_depth - 1`
whole levels follow, each expanding exactly the nodes produced at the
previous level. -/
def bfsLevelsSpec (metaClauses : List HornClause) (maximumDepth : Nat)
    (targetAtom : Atom) : List SLDNode × Option PyErr :=
  match yieldAll metaClauses
    (fun c =>
      apply_clause_to_node (SLDNode.root [targetAtom] none) c true) with
  | (level1, some e) => (level1, some e)
  | (level1, none) =>
    match levelsJoin metaClauses (maximumDepth - 1) level1 with
    | (more, e') => (level1 ++ more, e')

/-- Find-first reference description of the threshold mode of
`revise_node`'s candidate loop: the first admissible candidate whose
improvement over the fixed current evaluation strictly exceeds the
threshold is returned, and nothing after it is reached. -/
def firstAboveThreshold {Inf Score : Type} (ctx : LearningCtx Inf Score)
    (rl : RevisionLeaf) (targets : List Atom) (thr : Rat)
    (etf : List Clause → RevisionLeaf → List Atom →
      Except PyErr (Option Theory)) (currentEval : Score) :
    List (List Clause) → Except PyErr (Option Theory)
  | [] => .ok none
  | prog :: rest =>
    if ¬ progAdmissible prog then
      firstAboveThreshold ctx rl targets thr etf currentEval rest
    else do
      match ← etf prog rl targets with
      | none => firstAboveThreshold ctx rl targets thr etf currentEval rest
      | some currentTheory => do
        let evaluation ← ctx.evaluate_theory targets currentTheory
        if thr < ctx.compare evaluation currentEval then
          pure (some currentTheory)
        else firstAboveThreshold ctx rl targets thr etf currentEval rest

/-- Find-first reference description of the threshold mode of
`revise_node`'s node loop. -/
def firstAboveThresholdNodes {Inf Score : Type} (ctx : LearningCtx Inf Score)
    (fs : FieldState) (rl : RevisionLeaf) (targets : List Atom) (thr : Rat)
    (etf : List Clause → RevisionLeaf → List Atom →
      Except PyErr (Option Theory)) (cleanGen : PredicateGenerator)
    (currentEval : Score) : List SLDNode → Except PyErr (Option Theory)
  | [] => .ok none
  | node :: rest => do
    let mp ← createMetaProgram (extract_meta_program node)
      fs.generic_trainable_predicates
    match mp.first_order_programs fs.logic_predicates
        cleanGen.clean_copy with
    | (programs, fopErr) =>
      match ← firstAboveThreshold ctx rl targets thr etf currentEval
          programs with
      | some t => pure (some t)
      | none =>
        match fopErr with
        | some e => Except.error e
        | none =>
          firstAboveThresholdNodes ctx fs rl targets thr etf cleanGen
            currentEval rest

/-- Find-first reference description of the threshold mode of
`build_program_from_target`'s candidate loop. -/
def bpftFirstAboveThreshold {Inf Score : Type} (ctx : LearningCtx Inf Score)
    (targets : List Atom) (thr : Rat) (currentEval : Score) :
    List (List Clause) → Except PyErr (Option (List Clause))
  | [] => .ok none
  | prog :: rest =>
    match prog with
    | .horn fc :: progRest => do
      let evaluation ← ctx.evaluate_theory_appending targets
        (addAllUnique
          [Clause.horn (ctx.apply_clause_modifiers fc targets)] progRest)
      if thr < ctx.compare evaluation currentEval then
        pure (some (addAllUnique
          [Clause.horn (ctx.apply_clause_modifiers fc targets)] progRest))
      else bpftFirstAboveThreshold ctx targets thr currentEval rest
    | _ => bpftFirstAboveThreshold ctx targets thr currentEval rest

/-- Find-first reference description of the threshold mode of
`build_program_from_target`'s node loop. -/
def bpftFirstAboveThresholdNodes {Inf Score : Type}
    (ctx : LearningCtx Inf Score) (fs : FieldState) (targets : List Atom)
    (thr : Rat) (cleanGen : PredicateGenerator) (currentEval : Score) :
    List SLDNode → Except PyErr (Option (List Clause))
  | [] => .ok none
  | node :: rest => do
    let mp ← createMetaProgram (extract_meta_program node)
      fs.generic_trainable_predicates
    match mp.first_order_programs fs.logic_predicates
        cleanGen.clean_copy with
    | (programs, fopErr) =>
      match ← bpftFirstAboveThreshold ctx targets thr currentEval
          programs with
      | some p => pure (some p)
      | none =>
        match fopErr with
        | some e => Except.error e
        | none =>
          bpftFirstAboveThresholdNodes ctx fs targets thr cleanGen
            currentEval rest

/-- The collection step of the `body_variable_predicates` set of
`_create_meta_program`: builtin literals contribute nothing, a
variable-named predicate is added once. -/
def bodyVarFold (acc : List Predicate) (body : List Literal) :
    List Predicate :=
  body.foldl
    (fun acc l =>
      if l.predicate.name ∈ BUILTIN_PREDICATES then acc
      else if isVariableName l.predicate.name then addUnique acc l.predicate
      else acc)
    acc

/-- The variable-named predicates of the non-builtin body literals of one
clause (what `_create_meta_program` collects as
`body_variable_predicates`). -/
def clauseBodyVarPredicates (c : HornClause) : List Predicate :=
  bodyVarFold [] c.body

/-- The Variable terms bound by a substitution (the keys of the Python
`variables` dict of `apply_substitution`). -/
def boundVariableKeys (substitution : List (Predicate × String)) :
    List Term :=
  (substitutionTriples substitution).map (fun t => t.1)

/-- Every argument term of a produced clause. -/
def clauseArgTerms : Clause → List Term
  | .horn c => c.head.terms ++ c.body.flatMap (fun l => l.terms)
  | .atomC a => a.terms

/-- `True` when a result is a raised `TheoryRevisionException`. -/
def isWrappedRevisionError : Except PyErr (Option Theory) → Bool
  | .error (.theoryRevisionError _ _) => true
  | _ => false

instance : Inhabited SLDNode := ⟨SLDNode.root [] none⟩

/-- Fixture: the variable `X`. -/
def fxVarX : Term := Term.var "X"

/-- Fixture: the body literal `q(X)`. -/
def fxLitQ : Literal := ⟨⟨⟨"q", 1⟩, [fxVarX]⟩, false⟩

/-- Fixture: the body literal `r(X)`. -/
def fxLitR : Literal := ⟨⟨⟨"r", 1⟩, [fxVarX]⟩, false⟩

/-- Fixture: the theory clause `p(X) :- q(X), r(X)` — two body literals, so
a literal-leaf revision point inside it is not the clause's only literal. -/
def fxOrigClause : HornClause := ⟨⟨⟨"p", 1⟩, [fxVarX]⟩, [fxLitQ, fxLitR]⟩

/-- Fixture: a theory holding exactly `fxOrigClause`. -/
def fxTheory : Theory := ⟨[Clause.horn fxOrigClause], [], [], []⟩

/-- Fixture: a literal-leaf revision node whose parent clause is
`fxOrigClause`. -/
def fxLeaf : RevisionLeaf := ⟨false, false, fxOrigClause, fxOrigClause⟩

/-- Fixture: a derived first clause whose body is the false literal. -/
def fxFalseFirst : HornClause := ⟨⟨⟨"q", 1⟩, [fxVarX]⟩, [FALSE_LITERAL]⟩

/-- Fixture: a derived first clause with a non-placeholder head and a
non-false body (the literal-replacement branch). -/
def fxReplFirst : HornClause := ⟨⟨⟨"q", 1⟩, [fxVarX]⟩, [fxLitR]⟩

/-- Fixture: identity clause modifiers. -/
def fxIdModifiers : HornClause → List Atom → HornClause := fun c _ => c

/-- Fixture: the meta clause `P(Y) :- Q(Y)` (variable head predicate). -/
def fxMetaClause : HornClause :=
  ⟨⟨⟨"P", 1⟩, [Term.var "Y"]⟩, [⟨⟨⟨"Q", 1⟩, [Term.var "Y"]⟩, false⟩]⟩

/-- Fixture: the ground goal atom `p(b)`. -/
def fxGoal : Atom := ⟨⟨"p", 1⟩, [Term.const "b"]⟩

/-- Fixture: the second node (depth 2) of the breadth-first search over
`fxMetaClause` from `fxGoal` with maximum depth 2. -/
def fxNode2 : SLDNode :=
  ((apply_higher_order_program [fxMetaClause] 2 fxGoal).1).getD 1
    (SLDNode.root [] none)

/-- Fixture: the meta clause `P(X) :- Q(X)`. -/
def fxC4a : HornClause :=
  ⟨⟨⟨"P", 1⟩, [fxVarX]⟩, [⟨⟨⟨"Q", 1⟩, [fxVarX]⟩, false⟩]⟩

/-- Fixture: the meta clause `R(X) :- P(X)` — its body mentions the
variable predicate `P`, which heads `fxC4a`. -/
def fxC4b : HornClause :=
  ⟨⟨⟨"R", 1⟩, [fxVarX]⟩, [⟨⟨⟨"P", 1⟩, [fxVarX]⟩, false⟩]⟩

/-- Fixture: the meta program built from `fxC4a` and `fxC4b`: both variable
heads are invention candidates (each relative to its own clause's body
only), and `Q` remains a body predicate. -/
def fxMP9 : MetaProgram :=
  ⟨[⟨"P", 1⟩, ⟨"R", 1⟩], [⟨"Q", 1⟩], [], [], [fxC4a, fxC4b]⟩

/-- Fixture: a meta program whose single clause is
`P(X, Q) :- Q(X)` — the head carries the bound variable `Q` as an argument
term. -/
def fxMP10 : MetaProgram :=
  ⟨[⟨"P", 2⟩], [⟨"Q", 1⟩], [], [],
   [⟨⟨⟨"P", 2⟩, [fxVarX, Term.var "Q"]⟩,
     [⟨⟨⟨"Q", 1⟩, [fxVarX]⟩, false⟩]⟩]⟩

/-- Fixture: a full substitution for `fxMP10`. -/
def fxSub10 : List (Predicate × String) :=
  [(⟨"P", 2⟩, "foo"), (⟨"Q", 1⟩, "bar")]

/-- Fixture: the program `fxMP10.apply_substitution fxSub10` yields. -/
def fxProg10 : List Clause :=
  [Clause.horn
    ⟨⟨⟨"foo", 1⟩, [fxVarX]⟩, [⟨⟨⟨"bar", 1⟩, [fxVarX]⟩, false⟩]⟩]

/-- Fixture: a benign collaborator context over trivial inferred values and
rational scores. -/
def fxCtx : LearningCtx Unit Rat :=
  { meta_clauses := [fxMetaClause],
    maximum_depth := 1,
    theory := fxTheory,
    kb_logic_predicates := [],
    kb_functional_predicates := [],
    kb_trainable_predicates := [],
    get_revision_leaf := ⟨true, false, fxOrigClause, fxOrigClause⟩,
    get_target_predicate := ⟨"p", 1⟩,
    infer_examples := fun _ _ => .ok (),
    compute_metric := fun _ _ => .ok 0,
    compare := fun a b => a - b,
    evaluate_theory := fun _ _ => .ok 0,
    evaluate_theory_appending := fun _ _ => .ok 0,
    apply_clause_modifiers := fun c _ => c,
    is_positive := fun _ => true,
    contains_example := fun _ _ => false,
    build_program := fun t => .ok t,
    find_clause_paths := fun _ => [] }

/-- Fixture: the same context with a knowledge-base failure in the
inference collaborator. -/
def fxCtxInferErr : LearningCtx Unit Rat :=
  { fxCtx with
    infer_examples := fun _ _ => .error (.knowledgeError "kb failure") }

/-- Fixture: empty operator field state. -/
def fxFS : FieldState := ⟨[], [], []⟩

/-- Fixture: a context whose evaluator scores every theory `1`. -/
def fxCtxC8 : LearningCtx Unit Rat :=
  { fxCtx with evaluate_theory := fun _ _ => .ok 1 }

/-- Fixture: a theory extractor mapping a candidate program to the theory
holding exactly that program. -/
def fxEtfC8 : List Clause → RevisionLeaf → List Atom →
    Except PyErr (Option Theory) :=
  fun prog _ _ => .ok (some ⟨prog, [], [], []⟩)

/-- Fixture: first candidate program. -/
def fxProgA : List Clause := [Clause.horn fxOrigClause]

/-- Fixture: second candidate program. -/
def fxProgB : List Clause := [Clause.horn fxMetaClause]

instance {ε α : Type} [DecidableEq ε] [DecidableEq α] :
    DecidableEq (Except ε α)
  | .error e, .error e' =>
    if h : e = e' then isTrue (by rw [h])
    else isFalse (by intro hh; injection hh; contradiction)
  | .error _, .ok _ => isFalse (by intro h; cases h)
  | .ok _, .error _ => isFalse (by intro h; cases h)
  | .ok a, .ok b =>
    if h : a = b then isTrue (by rw [h])
    else isFalse (by intro hh; injection hh; contradiction)

theorem addUnique_mem {α : Type} [DecidableEq α] (l : List α) (x y : α) :
    y ∈ addUnique l x ↔ y ∈ l ∨ y = x := by
  unfold addUnique
  split
  · rename_i hx
    constructor
    · exact fun h => Or.inl h
    · rintro (h | rfl)
      · exact h
      · exact hx
  · simp

theorem removeRuleOf_of_mem (t : Theory) (c : HornClause)
    (h : Clause.horn c ∈ t.clauses) :
    t.removeRuleOf c =
      .ok { t with clauses := t.clauses.erase (Clause.horn c) } := by
  unfold Theory.removeRuleOf
  have hAny : (t.clauses.any fun cl =>
      match cl with
      | .horn hc => decide (hc.head.predicate = c.head.predicate)
      | .atomC _ => false) = true := by
    rw [List.any_eq_true]
    exact ⟨Clause.horn c, h, by simp⟩
  simp only [hAny]
  simp [h]

/-- C1 counterexample: for the theory `p(X) :- q(X), r(X)` and a derived
first clause whose body is the false literal, the literal-leaf strategy
returns the theory with the whole clause removed (here: the empty theory),
although the revision-point literal (`q(X)` or `r(X)`) was not the clause's
only body literal; the spec's described result, which keeps the clause
minus that one literal, differs.  This refutes the claim as stated. -/
theorem c1_counterexample :
    build_literal_leaf_theory fxIdModifiers fxTheory [Clause.horn fxFalseFirst]
        fxLeaf ([] : List Atom) =
      .ok (some (⟨[], [], [], []⟩ : Theory)) ∧
    fxOrigClause.body = [fxLitQ, fxLitR] ∧
    FALSE_LITERAL ∈ fxFalseFirst.body ∧
    literalLeafSpecTheory fxTheory fxOrigClause fxLitQ ≠
      (⟨[], [], [], []⟩ : Theory) ∧
    literalLeafSpecTheory fxTheory fxOrigClause fxLitR ≠
      (⟨[], [], [], []⟩ : Theory) := by
  decide

/-- C1 (amended): in a literal-leaf revision whose derived first clause's
body contains the false literal (and no placeholder predicate), the
candidate theory is the original theory with the whole parent clause
removed — regardless of how many body literals that clause has — and no
new clause is added. -/
theorem c1_literal_leaf_false_removes_whole_clause {Ex : Type}
    (modifiers : HornClause → List Ex → HornClause) (theory : Theory)
    (fc : HornClause) (rest : List Clause) (rl : RevisionLeaf)
    (targets : List Ex)
    (hA : VARIABLE_PREDICATE_NAME ∉ fc.body.map (fun l => l.predicate.name))
    (hF : FALSE_LITERAL ∈ fc.body)
    (hMem : Clause.horn rl.parent_element ∈ theory.clauses) :
    build_literal_leaf_theory modifiers theory (Clause.horn fc :: rest) rl
        targets =
      .ok (some { theory with
        clauses :=
          theory.clauses.erase (Clause.horn rl.parent_element) }) := by
  simp only [build_literal_leaf_theory]
  rw [if_neg hA]
  rw [removeRuleOf_of_mem theory rl.parent_element hMem]
  simp [hF, Except.bind]

/-- C1 witness: the amended theorem applied to the concrete fixture. -/
theorem c1_witness :
    (VARIABLE_PREDICATE_NAME ∉
      fxFalseFirst.body.map (fun l => l.predicate.name)) ∧
    FALSE_LITERAL ∈ fxFalseFirst.body ∧
    Clause.horn fxLeaf.parent_element ∈ fxTheory.clauses ∧
    build_literal_leaf_theory fxIdModifiers fxTheory
        [Clause.horn fxFalseFirst] fxLeaf ([] : List Atom) =
      .ok (some { fxTheory with
        clauses :=
          fxTheory.clauses.erase (Clause.horn fxLeaf.parent_element) }) :=
  ⟨by decide, by decide, by decide,
   c1_literal_leaf_false_removes_whole_clause fxIdModifiers fxTheory
     fxFalseFirst [] fxLeaf [] (by decide) (by decide) (by decide)⟩

/-- C2: in a literal-leaf revision whose derived first clause's body does
not contain the false literal and whose head predicate name differs from
the placeholder `"A"`, the literal-replacement branch raises (`TypeError`
from the argument-less `new_clause.body.remove()` call), and no candidate
theory is ever returned from that branch: the result is either the
placeholder skip (`none`) or the raised error. -/
theorem c2_literal_replacement_branch_raises {Ex : Type}
    (modifiers : HornClause → List Ex → HornClause) (theory : Theory)
    (fc : HornClause) (rest : List Clause) (rl : RevisionLeaf)
    (targets : List Ex)
    (hF : FALSE_LITERAL ∉ fc.body)
    (hH : fc.head.predicate.name ≠ VARIABLE_PREDICATE_NAME)
    (hMem : Clause.horn rl.parent_element ∈ theory.clauses) :
    build_literal_leaf_theory modifiers theory (Clause.horn fc :: rest) rl
        targets =
      (if VARIABLE_PREDICATE_NAME ∈ fc.body.map (fun l => l.predicate.name)
       then .ok none
       else .error (.typeError "list.remove takes exactly one argument")) ∧
    ∀ t, build_literal_leaf_theory modifiers theory (Clause.horn fc :: rest)
        rl targets ≠ .ok (some t) := by
  have hEq : build_literal_leaf_theory modifiers theory
      (Clause.horn fc :: rest) rl targets =
      (if VARIABLE_PREDICATE_NAME ∈ fc.body.map (fun l => l.predicate.name)
       then .ok none
       else .error (.typeError "list.remove takes exactly one argument")) := by
    simp only [build_literal_leaf_theory]
    by_cases hA :
        VARIABLE_PREDICATE_NAME ∈ fc.body.map (fun l => l.predicate.name)
    · rw [if_pos hA, if_pos hA]
    · rw [if_neg hA, if_neg hA,
        removeRuleOf_of_mem theory rl.parent_element hMem]
      simp only [Except.bind, bind]
      rw [if_neg hF, if_pos hH]
  refine ⟨hEq, fun t => ?_⟩
  rw [hEq]
  split <;> simp

/-- C2 witness: the theorem applied to the concrete literal-replacement
fixture, where the branch is reached and raises. -/
theorem c2_witness :
    FALSE_LITERAL ∉ fxReplFirst.body ∧
    fxReplFirst.head.predicate.name ≠ VARIABLE_PREDICATE_NAME ∧
    Clause.horn fxLeaf.parent_element ∈ fxTheory.clauses ∧
    build_literal_leaf_theory fxIdModifiers fxTheory
        [Clause.horn fxReplFirst] fxLeaf ([] : List Atom) =
      (if VARIABLE_PREDICATE_NAME ∈
          fxReplFirst.body.map (fun l => l.predicate.name)
       then .ok none
       else .error (.typeError "list.remove takes exactly one argument")) :=
  ⟨by decide, by decide, by decide,
   (c2_literal_replacement_branch_raises fxIdModifiers fxTheory fxReplFirst
     [] fxLeaf [] (by decide) (by decide) (by decide)).1⟩

/-- C9: for every successfully constructed meta program, the head
predicates and the body predicates are disjoint — the constructor's final
`difference_update` removes every head predicate from the body set. -/
theorem c9_head_body_disjoint (metaClauses : List HornClause)
    (tr : List TrainRef) (mp : MetaProgram)
    (h : createMetaProgram metaClauses tr = .ok mp) :
    ∀ p ∈ mp.head_predicates, p ∉ mp.body_predicates := by
  unfold createMetaProgram at h
  cases hf : metaClauses.foldlM metaClauseStep
      (⟨[], [], tr.foldl addUnique [], [], []⟩ : MetaProgram) with
  | error e => rw [hf] at h; simp [Except.bind] at h
  | ok mp0 =>
    rw [hf] at h
    simp only [Except.bind, pure] at h
    injection h with h
    subst h
    intro p hp hbody
    simp only [List.mem_filter] at hbody
    exact (of_decide_eq_true hbody.2) hp

/-- C9 witness: the theorem applied to the meta program built from the
fixture clauses. -/
theorem c9_witness :
    createMetaProgram [fxC4a, fxC4b] [] = .ok fxMP9 ∧
    (⟨"P", 1⟩ : Predicate) ∈ fxMP9.head_predicates ∧
    (⟨"P", 1⟩ : Predicate) ∉ fxMP9.body_predicates :=
  ⟨by decide, by decide,
   c9_head_body_disjoint [fxC4a, fxC4b] [] fxMP9 (by decide) ⟨"P", 1⟩
     (by decide)⟩

theorem except_bind_error {ε α β : Type} (e : ε) (f : α → Except ε β) :
    (Except.error e >>= f) = Except.error e := rfl

theorem except_bind_ok {ε α β : Type} (a : α) (f : α → Except ε β) :
    (Except.ok a >>= f) = f a := rfl

theorem wrapRevisionError_ne_bare {α : Type} (x : Except PyErr α)
    (m : String) : wrapRevisionError x ≠ .error (.knowledgeError m) := by
  unfold wrapRevisionError
  split
  · simp
  · rename_i other hne
    intro h
    exact hne m (h ▸ rfl)

/-- C5 counterexample: a knowledge-base failure raised by the inference
collaborator during `perform_operation_on_tree` (the tree path of
`perform_operation`) reaches the caller as the raw `KnowledgeException` —
it is not wrapped into a `TheoryRevisionException`, refuting the claim
that both entry paths re-raise a single wrapped error kind. -/
theorem c5_counterexample :
    perform_operation_on_tree fxCtxInferErr fxFS ([] : List Atom) none =
      .error (.knowledgeError "kb failure") ∧
    isWrappedRevisionError
      (perform_operation_on_tree fxCtxInferErr fxFS ([] : List Atom) none) =
      false := by
  decide

/-- C5 (amended): only the examples entry path catches
`KnowledgeException` at its operation boundary and re-raises it as a
`TheoryRevisionException` wrapping the cause (its result is never a bare
knowledge error, and a knowledge failure of the first inference call
surfaces wrapped); the tree entry path has no handler and propagates the
collaborator's `KnowledgeException` unchanged (shown for a root revision
leaf, where the failure strikes at the first inference call). -/
theorem c5_amended :
    (∀ (Inf Score : Type) (ctx : LearningCtx Inf Score) (fs : FieldState)
        (targets : List Atom) (thr : Option Rat) (m : String),
      ctx.get_revision_leaf.is_root = true →
      ctx.infer_examples targets none = .error (.knowledgeError m) →
      perform_operation_on_tree ctx fs targets thr =
        .error (.knowledgeError m)) ∧
    (∀ (Inf Score : Type) (ctx : LearningCtx Inf Score) (targets : List Atom)
        (thr : Option Rat) (m : String),
      perform_operation_on_examples ctx targets thr ≠
        .error (.knowledgeError m)) ∧
    (∀ (Inf Score : Type) (ctx : LearningCtx Inf Score) (ex : Atom)
        (rest : List Atom) (thr : Option Rat) (m : String),
      ctx.infer_examples (ex :: rest) (some ctx.theory) =
        .error (.knowledgeError m) →
      perform_operation_on_examples ctx (ex :: rest) thr =
        .error (.theoryRevisionError "Error when revising the theory."
          (.knowledgeError m))) := by
  refine ⟨?_, ?_, ?_⟩
  · intro Inf Score ctx fs targets thr m hroot herr
    unfold perform_operation_on_tree revise_node
    simp [hroot, herr, except_bind_error]
  · intro Inf Score ctx targets thr m
    unfold perform_operation_on_examples
    exact wrapRevisionError_ne_bare _ m
  · intro Inf Score ctx ex rest thr m herr
    unfold perform_operation_on_examples examplesLoop
    simp [herr, except_bind_error, wrapRevisionError]

/-- C5 witness: the amended theorem applied to the concrete failing
collaborator context, on both entry paths. -/
theorem c5_witness :
    (fxCtxInferErr.get_revision_leaf.is_root = true ∧
     fxCtxInferErr.infer_examples ([] : List Atom) none =
       .error (.knowledgeError "kb failure") ∧
     perform_operation_on_tree fxCtxInferErr fxFS ([] : List Atom) none =
       .error (.knowledgeError "kb failure")) ∧
    (fxCtxInferErr.infer_examples [fxGoal] (some fxCtxInferErr.theory) =
       .error (.knowledgeError "kb failure") ∧
     perform_operation_on_examples fxCtxInferErr [fxGoal] none =
       .error (.theoryRevisionError "Error when revising the theory."
         (.knowledgeError "kb failure"))) :=
  ⟨⟨by decide, by decide,
    c5_amended.1 Unit Rat fxCtxInferErr fxFS [] none "kb failure" (by decide)
      (by decide)⟩,
   ⟨by decide,
    c5_amended.2.2 Unit Rat fxCtxInferErr fxGoal [] none "kb failure"
      (by decide)⟩⟩

theorem processNodes_spec (cs : List HornClause) :
    ∀ (k : Nat) (q : List SLDNode), k ≤ q.length →
      (processNodes cs k q).1 = (yieldAll (q.take k) (expandNode cs)).1 ∧
      (processNodes cs k q).2.2 = (yieldAll (q.take k) (expandNode cs)).2 ∧
      ((yieldAll (q.take k) (expandNode cs)).2 = none →
        (processNodes cs k q).2.1 =
          q.drop k ++ (processNodes cs k q).1) := by
  intro k
  induction k with
  | zero => intro q hq; simp [processNodes, yieldAll]
  | succ k ih =>
    intro q hq
    match q with
    | [] => simp at hq
    | cur :: rest =>
      have hk : k ≤ rest.length := by
        simpa [Nat.succ_le_succ_iff] using hq
      have hkc : k ≤ (rest ++ (expandNode cs cur).1).length := by
        simp only [List.length_append]
        omega
      obtain ⟨h1, h2, h3⟩ := ih (rest ++ (expandNode cs cur).1) hkc
      simp only [processNodes, yieldAll, List.take_succ_cons,
        List.drop_succ_cons]
      rcases hE : expandNode cs cur with ⟨children, err⟩
      cases err with
      | some e => simp
      | none =>
        simp only []
        rw [List.take_append_of_le_length hk] at h1 h2 h3
        rw [List.drop_append_of_le_length hk] at h3
        rw [hE] at h1 h2 h3
        simp only [hE] at *
        constructor
        · rw [h1]
        constructor
        · rw [h2]
        · intro hnone
          rw [h3 hnone, h1]
          simp

theorem outerLevels_eq_levelsJoin (cs : List HornClause) :
    ∀ (d : Nat) (lv : List SLDNode),
      outerLevels cs d lv = levelsJoin cs d lv := by
  intro d
  induction d with
  | zero => intro lv; rfl
  | succ d ih =>
    intro lv
    obtain ⟨h1, h2, h3⟩ := processNodes_spec cs lv.length lv (le_refl _)
    rw [List.take_length] at h1 h2 h3
    rw [List.drop_length] at h3
    simp only [outerLevels, levelsJoin]
    rcases hY : yieldAll lv (expandNode cs) with ⟨em, err⟩
    rw [hY] at h1 h2 h3
    rcases hP : processNodes cs lv.length lv with ⟨em', q', err'⟩
    rw [hP] at h1 h2 h3
    simp only at h1 h2 h3
    subst h1 h2
    cases err' with
    | some e => simp
    | none =>
      have hq : q' = em' := by simpa using h3 rfl
      subst hq
      simp [ih]

theorem ahop_eq_bfsLevels (cs : List HornClause) (k : Nat) (t : Atom) :
    apply_higher_order_program cs k t = bfsLevelsSpec cs k t := by
  unfold apply_higher_order_program bfsLevelsSpec
  simp only [outerLevels_eq_levelsJoin]

theorem yieldAll_mem {α β : Type} (xs : List α)
    (f : α → List β × Option PyErr) :
    ∀ m ∈ (yieldAll xs f).1, ∃ x ∈ xs, m ∈ (f x).1 := by
  induction xs with
  | nil => simp [yieldAll]
  | cons x rest ih =>
    intro m hm
    simp only [yieldAll] at hm
    rcases hE : f x with ⟨ys, e⟩
    rw [hE] at hm
    cases e with
    | some err =>
      simp only at hm
      exact ⟨x, by simp, by rw [hE]; exact hm⟩
    | none =>
      simp only [List.mem_append] at hm
      cases hm with
      | inl h => exact ⟨x, by simp, by rw [hE]; exact h⟩
      | inr h =>
        obtain ⟨x', hx', hm'⟩ := ih m h
        exact ⟨x', by simp [hx'], hm'⟩

theorem applyAtGoal_shape (node : SLDNode) (clause : HornClause) (ucp : Bool)
    (avoid : List Term) (i : Nat) (m : SLDNode)
    (h : applyAtGoal node clause ucp avoid i = .ok (some m)) :
    ∃ v rc, m = SLDNode.child v (some rc) node := by
  unfold applyAtGoal at h
  split at h
  · simp at h
  · split at h
    · simp at h
    · split at h
      · simp at h
      · split at h
        · split at h
          · simp at h
          · rename_i renamedHeadTerms hmap
            simp only [Except.ok.injEq, Option.some.injEq] at h
            exact ⟨_, _, h.symm⟩

theorem collectGoalYields_mem (node : SLDNode) (clause : HornClause)
    (ucp : Bool) (avoid : List Term) :
    ∀ (is : List Nat) (m : SLDNode),
      m ∈ (collectGoalYields node clause ucp avoid is).1 →
      ∃ i, applyAtGoal node clause ucp avoid i = .ok (some m) := by
  intro is
  induction is with
  | nil => simp [collectGoalYields]
  | cons i rest ih =>
    intro m hm
    simp only [collectGoalYields] at hm
    split at hm
    · simp at hm
    · exact ih m hm
    · rename_i n hn
      simp only [List.mem_cons] at hm
      cases hm with
      | inl h => exact ⟨i, by rw [hn, h]⟩
      | inr h => exact ih m h

theorem acn_shape (node : SLDNode) (clause : HornClause) (ucp : Bool)
    (m : SLDNode) (hm : m ∈ (apply_clause_to_node node clause ucp).1) :
    ∃ v rc, m = SLDNode.child v (some rc) node := by
  obtain ⟨i, hi⟩ := collectGoalYields_mem node clause ucp node.avoidingTerms
    (List.range node.values.length) m hm
  exact applyAtGoal_shape node clause ucp node.avoidingTerms i m hi

theorem expandNode_shape (cs : List HornClause) (n m : SLDNode)
    (hm : m ∈ (expandNode cs n).1) :
    ∃ v rc, m = SLDNode.child v (some rc) n := by
  obtain ⟨c, _, hc⟩ := yieldAll_mem cs (fun c => apply_clause_to_node n c false) m hm
  exact acn_shape n c false m hc

theorem levelsJoin_depth (cs : List HornClause) :
    ∀ (d : Nat) (lv : List SLDNode) (D : Nat),
      (∀ n ∈ lv, n.depth ≤ D) →
      ∀ m ∈ (levelsJoin cs d lv).1, m.depth ≤ D + d := by
  intro d
  induction d with
  | zero => intro lv D _ m hm; simp [levelsJoin] at hm
  | succ d ih =>
    intro lv D hlv m hm
    simp only [levelsJoin] at hm
    rcases hY : yieldAll lv (expandNode cs) with ⟨em, err⟩
    rw [hY] at hm
    have hem : ∀ x ∈ em, x.depth ≤ D + 1 := by
      intro x hx
      obtain ⟨n, hn, hxn⟩ :=
        yieldAll_mem lv (expandNode cs) x (by rw [hY]; exact hx)
      obtain ⟨v, rc, rfl⟩ := expandNode_shape cs n x hxn
      have := hlv n hn
      simp only [SLDNode.depth]
      omega
    cases err with
    | some e =>
      simp only at hm
      have := hem m hm
      omega
    | none =>
      simp only [List.mem_append] at hm
      cases hm with
      | inl h =>
        have := hem m h
        omega
      | inr h =>
        have := ih em (D + 1) hem m h
        omega

theorem levelsJoin_chain (cs : List HornClause) :
    ∀ (d : Nat) (lv : List SLDNode),
      (∀ n ∈ lv, (extract_meta_program n).length = n.depth) →
      ∀ m ∈ (levelsJoin cs d lv).1,
        (extract_meta_program m).length = m.depth := by
  intro d
  induction d with
  | zero => intro lv _ m hm; simp [levelsJoin] at hm
  | succ d ih =>
    intro lv hlv m hm
    simp only [levelsJoin] at hm
    rcases hY : yieldAll lv (expandNode cs) with ⟨em, err⟩
    rw [hY] at hm
    have hem : ∀ x ∈ em, (extract_meta_program x).length = x.depth := by
      intro x hx
      obtain ⟨n, hn, hxn⟩ :=
        yieldAll_mem lv (expandNode cs) x (by rw [hY]; exact hx)
      obtain ⟨v, rc, rfl⟩ := expandNode_shape cs n x hxn
      have := hlv n hn
      simp only [SLDNode.depth, extract_meta_program, List.length_append]
      simp [this]
    cases err with
    | some e =>
      simp only at hm
      exact hem m hm
    | none =>
      simp only [List.mem_append] at hm
      cases hm with
      | inl h => exact hem m h
      | inr h => exact ih em hem m h

theorem level1_depth (cs : List HornClause) (t : Atom) :
    ∀ m ∈ (yieldAll cs
        (fun c => apply_clause_to_node (SLDNode.root [t] none) c true)).1,
      m.depth = 1 := by
  intro m hm
  obtain ⟨c, _, hc⟩ := yieldAll_mem cs _ m hm
  obtain ⟨v, rc, rfl⟩ := acn_shape _ c true m hc
  simp [SLDNode.depth]

/-- C3 counterexample: with `maximum_depth = 0`, the first expansion still
runs (`range(0 - 1)` is empty, but the first loop is unconditional), so the
search yields a node at depth `1 > 0`, refuting the claim for `k = 0`. -/
theorem c3_counterexample :
    ∃ n ∈ (apply_higher_order_program [fxMetaClause] 0 fxGoal).1,
      0 < n.depth := by
  decide

/-- C3 (amended): for every target atom, meta-clause list and maximum
depth `k`, `apply_higher_order_program` never yields a node whose distance
from the root exceeds `max k 1` (the first expansion always runs, so depth
1 is reachable even at `k = 0`), and the yielded sequence is finite (the
embedding is a total function into a list). -/
theorem c3_depth_bound (cs : List HornClause) (k : Nat) (t : Atom) :
    ∀ n ∈ (apply_higher_order_program cs k t).1, n.depth ≤ max k 1 := by
  intro n hn
  rw [ahop_eq_bfsLevels] at hn
  unfold bfsLevelsSpec at hn
  rcases hY : yieldAll cs
      (fun c => apply_clause_to_node (SLDNode.root [t] none) c true) with
    ⟨level1, err⟩
  rw [hY] at hn
  have h1 : ∀ m ∈ level1, m.depth = 1 := by
    intro m hm
    exact level1_depth cs t m (by rw [hY]; exact hm)
  cases err with
  | some e =>
    simp only at hn
    have := h1 n hn
    omega
  | none =>
    simp only [List.mem_append] at hn
    cases hn with
    | inl h =>
      have := h1 n h
      omega
    | inr h =>
      have := levelsJoin_depth cs (k - 1) level1 1 (fun x hx => le_of_eq (h1 x hx)) n h
      omega

/-- C3 witness: the bound applied to a concrete depth-2 search node. -/
theorem c3_witness :
    fxNode2 ∈ (apply_higher_order_program [fxMetaClause] 2 fxGoal).1 ∧
    fxNode2.depth ≤ max 2 1 :=
  ⟨by decide, c3_depth_bound [fxMetaClause] 2 fxGoal fxNode2 (by decide)⟩

/-- C6: `extract_meta_program` returns the empty sequence on the root
node; on a node of the search it returns one clause per derivation step —
exactly `d` clauses for a node at depth `d` — and the sequence is ordered
root-to-node: a child's sequence is its parent's sequence with the child's
applied clause appended. -/
theorem c6_extract_meta_program :
    (∀ (v : List Atom), extract_meta_program (SLDNode.root v none) = []) ∧
    (∀ (v : List Atom) (c : HornClause) (p : SLDNode),
      extract_meta_program (SLDNode.child v (some c) p) =
        extract_meta_program p ++ [c]) ∧
    (∀ (cs : List HornClause) (k : Nat) (t : Atom),
      ∀ n ∈ (apply_higher_order_program cs k t).1,
        (extract_meta_program n).length = n.depth) := by
  refine ⟨fun v => rfl, fun v c p => rfl, ?_⟩
  intro cs k t n hn
  rw [ahop_eq_bfsLevels] at hn
  unfold bfsLevelsSpec at hn
  rcases hY : yieldAll cs
      (fun c => apply_clause_to_node (SLDNode.root [t] none) c true) with
    ⟨level1, err⟩
  rw [hY] at hn
  have h1 : ∀ m ∈ level1, (extract_meta_program m).length = m.depth := by
    intro m hm
    obtain ⟨c, _, hc⟩ := yieldAll_mem cs _ m (by rw [hY]; exact hm)
    obtain ⟨v, rc, rfl⟩ := acn_shape _ c true m hc
    simp [SLDNode.depth, extract_meta_program]
  cases err with
  | some e =>
    simp only at hn
    exact h1 n hn
  | none =>
    simp only [List.mem_append] at hn
    cases hn with
    | inl h => exact h1 n h
    | inr h => exact levelsJoin_chain cs (k - 1) level1 h1 n h

/-- C6 witness: the length-equals-depth part applied to a concrete depth-2
search node. -/
theorem c6_witness :
    fxNode2 ∈ (apply_higher_order_program [fxMetaClause] 2 fxGoal).1 ∧
    (extract_meta_program fxNode2).length = fxNode2.depth :=
  ⟨by decide,
   c6_extract_meta_program.2.2 [fxMetaClause] 2 fxGoal fxNode2 (by decide)⟩

/-- C7: the queue-based generator equals the level-structured description:
every meta clause is applied to the root with `unify_constant_predicate =
True`; each of the remaining `maximum_depth - 1` levels expands, with
`unify_constant_predicate = False`, exactly the nodes produced at the
previous level (the inner loop dequeues precisely the previous level and
leaves the new level as the queue), with every produced node yielded in
breadth-first order. -/
theorem c7_breadth_first_structure :
    (∀ (cs : List HornClause) (k : Nat) (t : Atom),
      apply_higher_order_program cs k t = bfsLevelsSpec cs k t) ∧
    (∀ (cs : List HornClause) (lv : List SLDNode),
      (yieldAll lv (expandNode cs)).2 = none →
      processNodes cs lv.length lv =
        ((yieldAll lv (expandNode cs)).1, (yieldAll lv (expandNode cs)).1,
          none)) := by
  constructor
  · exact ahop_eq_bfsLevels
  · intro cs lv hnone
    obtain ⟨h1, h2, h3⟩ := processNodes_spec cs lv.length lv (le_refl _)
    rw [List.take_length] at h1 h2 h3
    rw [List.drop_length] at h3
    have hq := h3 hnone
    rw [hnone] at h2
    rcases hP : processNodes cs lv.length lv with ⟨em, q, err⟩
    rw [hP] at h1 h2 hq
    simp only at h1 h2 hq
    subst h1
    subst h2
    simp only [List.nil_append] at hq
    subst hq
    rfl

/-- C7 witness: the exact-dequeue part applied to the concrete first level
of the fixture search. -/
theorem c7_witness :
    (yieldAll
        ((apply_clause_to_node (SLDNode.root [fxGoal] none) fxMetaClause
          true).1)
        (expandNode [fxMetaClause])).2 = none ∧
    processNodes [fxMetaClause]
        ((apply_clause_to_node (SLDNode.root [fxGoal] none) fxMetaClause
          true).1).length
        ((apply_clause_to_node (SLDNode.root [fxGoal] none) fxMetaClause
          true).1) =
      ((yieldAll
          ((apply_clause_to_node (SLDNode.root [fxGoal] none) fxMetaClause
            true).1)
          (expandNode [fxMetaClause])).1,
       (yieldAll
          ((apply_clause_to_node (SLDNode.root [fxGoal] none) fxMetaClause
            true).1)
          (expandNode [fxMetaClause])).1,
       none) :=
  ⟨by decide,
   c7_breadth_first_structure.2 [fxMetaClause]
     ((apply_clause_to_node (SLDNode.root [fxGoal] none) fxMetaClause
       true).1) (by decide)⟩

theorem metaBodyStep_ok (mp : MetaProgram) (b : List Literal)
    (acc : List Predicate) (l : Literal)
    (st' : MetaProgram × List Literal × List Predicate)
    (h : metaBodyStep (mp, b, acc) l = .ok st') :
    st'.1.head_predicates = mp.head_predicates ∧
    st'.2.2 = bodyVarFold acc [l] := by
  unfold metaBodyStep at h
  split at h
  rename_i heq
  injection heq with e1 e23
  injection e23 with e2 e3
  subst e1
  subst e2
  subst e3
  simp only [bodyVarFold, List.foldl_cons, List.foldl_nil]
  split at h
  · rename_i hB
    rw [if_pos hB]
    split at h
    · split at h
      · simp at h
      · cases hp : get_predicate_from_string (Term.get_name _) with
        | error e =>
          rw [hp] at h
          simp [except_bind_error, Except.bind] at h
        | ok p =>
          rw [hp] at h
          simp only [except_bind_ok, Except.bind, pure, Except.pure] at h
          injection h with h
          subst h
          exact ⟨rfl, rfl⟩
    · simp only [pure, Except.pure] at h
      injection h with h
      subst h
      exact ⟨rfl, rfl⟩
  · rename_i hB
    rw [if_neg hB]
    simp only [pure, Except.pure] at h
    injection h with h
    subst h
    exact ⟨rfl, rfl⟩

theorem metaBody_fold_ok :
    ∀ (body : List Literal) (mp : MetaProgram) (b : List Literal)
      (acc : List Predicate)
      (res : MetaProgram × List Literal × List Predicate),
      body.foldlM metaBodyStep (mp, b, acc) = .ok res →
      res.1.head_predicates = mp.head_predicates ∧
      res.2.2 = bodyVarFold acc body := by
  intro body
  induction body with
  | nil =>
    intro mp b acc res h
    simp only [List.foldlM_nil, pure, Except.pure] at h
    injection h with h
    subst h
    exact ⟨rfl, rfl⟩
  | cons l rest ih =>
    intro mp b acc res h
    rw [List.foldlM_cons] at h
    cases hs : metaBodyStep (mp, b, acc) l with
    | error e =>
      rw [hs] at h
      simp [except_bind_error, Except.bind] at h
    | ok st' =>
      rw [hs] at h
      simp only [except_bind_ok, Except.bind] at h
      obtain ⟨h1, h2⟩ := metaBodyStep_ok mp b acc l st' hs
      rcases st' with ⟨mp', b', acc'⟩
      obtain ⟨ih1, ih2⟩ := ih mp' b' acc' res h
      constructor
      · rw [ih1]
        exact h1
      · rw [ih2]
        simp only at h2
        rw [h2]
        simp [bodyVarFold]

theorem metaClauseStep_heads (mp mp' : MetaProgram) (c : HornClause)
    (h : metaClauseStep mp c = .ok mp') :
    mp'.head_predicates =
      if isVariableName c.head.predicate.name ∧
          c.head.predicate ∉ clauseBodyVarPredicates c then
        addUnique mp.head_predicates c.head.predicate
      else mp.head_predicates := by
  unfold metaClauseStep at h
  cases hf : c.body.foldlM metaBodyStep (mp, [], []) with
  | error e =>
    rw [hf] at h
    simp [except_bind_error, Except.bind] at h
  | ok res =>
    rw [hf] at h
    rcases res with ⟨mp1, body1, bv1⟩
    obtain ⟨h1, h2⟩ := metaBody_fold_ok c.body mp [] [] (mp1, body1, bv1) hf
    simp only at h1 h2
    simp only [except_bind_ok, Except.bind, pure, Except.pure] at h
    injection h with h
    subst h
    simp only []
    rw [h1, h2]
    simp [clauseBodyVarPredicates]

theorem metaClauses_fold_heads :
    ∀ (cs : List HornClause) (mp0 mpf : MetaProgram),
      cs.foldlM metaClauseStep mp0 = .ok mpf →
      ∀ p, p ∈ mpf.head_predicates ↔
        p ∈ mp0.head_predicates ∨
        ∃ c ∈ cs, c.head.predicate = p ∧ isVariableName p.name = true ∧
          p ∉ clauseBodyVarPredicates c := by
  intro cs
  induction cs with
  | nil =>
    intro mp0 mpf h p
    simp only [List.foldlM_nil, pure, Except.pure] at h
    injection h with h
    subst h
    simp
  | cons c rest ih =>
    intro mp0 mpf h p
    rw [List.foldlM_cons] at h
    cases hs : metaClauseStep mp0 c with
    | error e =>
      rw [hs] at h
      simp [except_bind_error, Except.bind] at h
    | ok mp1 =>
      rw [hs] at h
      simp only [except_bind_ok, Except.bind] at h
      have hh := metaClauseStep_heads mp0 mp1 c hs
      rw [ih mp1 mpf h p, hh]
      constructor
      · rintro (h1 | ⟨c', hc', hrest⟩)
        · by_cases hcond : isVariableName c.head.predicate.name = true ∧
              c.head.predicate ∉ clauseBodyVarPredicates c
          · rw [if_pos hcond] at h1
            rcases (addUnique_mem _ _ _).1 h1 with h2 | h2
            · exact Or.inl h2
            · subst h2
              exact Or.inr ⟨c, List.mem_cons_self c rest, rfl, hcond.1,
                hcond.2⟩
          · rw [if_neg hcond] at h1
            exact Or.inl h1
        · exact Or.inr ⟨c', List.mem_cons_of_mem c hc', hrest⟩
      · rintro (h1 | ⟨c', hc', he, hvar, hnb⟩)
        · left
          split
          · exact (addUnique_mem _ _ _).2 (Or.inl h1)
          · exact h1
        · rcases List.mem_cons.1 hc' with rfl | hc'
          · left
            have hcond : isVariableName c'.head.predicate.name = true ∧
                c'.head.predicate ∉ clauseBodyVarPredicates c' := by
              constructor
              · rw [he]
                exact hvar
              · rw [he]
                exact hnb
            rw [if_pos hcond]
            exact (addUnique_mem _ _ _).2 (Or.inr he.symm)
          · exact Or.inr ⟨c', hc', he, hvar, hnb⟩

/-- C4 (amended): a predicate is in `head_predicates` exactly when it is
the variable-named head predicate of some meta clause and does not appear
as a variable-predicate literal in that same clause's own (non-builtin)
body.  Appearing in another clause's body does not exclude it, contrary to
the claim as stated. -/
theorem c4_amended (cs : List HornClause) (tr : List TrainRef)
    (mp : MetaProgram) (h : createMetaProgram cs tr = .ok mp) :
    ∀ p, p ∈ mp.head_predicates ↔
      ∃ c ∈ cs, c.head.predicate = p ∧ isVariableName p.name = true ∧
        p ∉ clauseBodyVarPredicates c := by
  unfold createMetaProgram at h
  cases hf : cs.foldlM metaClauseStep
      (⟨[], [], tr.foldl addUnique [], [], []⟩ : MetaProgram) with
  | error e =>
    rw [hf] at h
    simp [except_bind_error, Except.bind] at h
  | ok mp0 =>
    rw [hf] at h
    simp only [except_bind_ok, Except.bind, pure, Except.pure] at h
    injection h with h
    subst h
    intro p
    have hiff := metaClauses_fold_heads cs _ mp0 hf p
    simpa using hiff

/-- C4 counterexample: with clauses `P(X) :- Q(X)` and `R(X) :- P(X)`,
the predicate `P/1` is in `head_predicates` even though it appears as a
variable-predicate literal in the second clause's body, refuting the
claim's "never appears ... in the body of any clause". -/
theorem c4_counterexample :
    createMetaProgram [fxC4a, fxC4b] [] = .ok fxMP9 ∧
    (⟨"P", 1⟩ : Predicate) ∈ fxMP9.head_predicates ∧
    fxC4b ∈ [fxC4a, fxC4b] ∧
    (⟨"P", 1⟩ : Predicate) ∈ clauseBodyVarPredicates fxC4b := by
  decide

/-- C4 witness: the amended characterization applied to the fixture,
establishing membership of `R/1`. -/
theorem c4_witness :
    createMetaProgram [fxC4a, fxC4b] [] = .ok fxMP9 ∧
    (⟨"R", 1⟩ : Predicate) ∈ fxMP9.head_predicates :=
  ⟨by decide,
   (c4_amended [fxC4a, fxC4b] [] fxMP9 (by decide) ⟨"R", 1⟩).mpr
     ⟨fxC4b, by decide, rfl, by decide, by decide⟩⟩

theorem pyDictGet_none_iff {α β : Type} [DecidableEq α]
    (l : List (α × β)) (k : α) :
    pyDictGet l k = none ↔ ∀ p ∈ l, p.1 ≠ k := by
  induction l with
  | nil => simp [pyDictGet]
  | cons x rest ih =>
    simp only [pyDictGet]
    cases hr : pyDictGet rest k with
    | some v =>
      simp only []
      constructor
      · intro h; cases h
      · intro h
        exfalso
        have := (not_iff_not.2 ih).2
        rw [hr] at ih
        have h2 : ∀ p ∈ rest, p.1 ≠ k := fun p hp => h p (List.mem_cons_of_mem x hp)
        have := ih.2 h2
        cases this
    | none =>
      simp only []
      have hrest := ih.1 hr
      constructor
      · intro h
        split at h
        · cases h
        · rename_i hne
          intro p hp
          rcases List.mem_cons.1 hp with rfl | hp
          · exact fun hc => hne hc
          · exact hrest p hp
      · intro h
        rw [if_neg (h x (List.mem_cons_self x rest))]

theorem triples_keys_var (sub : List (Predicate × String)) :
    ∀ x ∈ substitutionTriples sub, ∃ v, x.1 = Term.var v := by
  intro x hx
  simp only [substitutionTriples, List.mem_filterMap] at hx
  obtain ⟨ps, _, hps⟩ := hx
  revert hps
  cases h : get_term_from_string ps.1.name with
  | var v => intro hps; injection hps with hps; exact ⟨v, by rw [← hps]⟩
  | const n => intro hps; cases hps
  | quote q v => intro hps; cases hps

theorem notKey_of_not_var {vm : List (Term × String)}
    (hkeys : ∀ x ∈ vm, ∃ v, x.1 = Term.var v) (t : Term)
    (ht : ∀ v, t ≠ Term.var v) : t ∉ vm.map (fun x => x.1) := by
  intro hmem
  simp only [List.mem_map] at hmem
  obtain ⟨p, hp, hpt⟩ := hmem
  obtain ⟨v, hv⟩ := hkeys p hp
  rw [hv] at hpt
  exact ht v hpt.symm

theorem notKey_of_lookup_none {vm : List (Term × String)} (t : Term)
    (h : pyDictGet vm t = none) : t ∉ vm.map (fun x => x.1) := by
  intro hmem
  simp only [List.mem_map] at hmem
  obtain ⟨p, hp, hpt⟩ := hmem
  exact (pyDictGet_none_iff vm t).1 h p hp hpt

theorem rvt_not_bound (vm : List (Term × String)) (ar : List (Term × Int))
    (hkeys : ∀ x ∈ vm, ∃ v, x.1 = Term.var v) :
    ∀ (ts ts' : List Term), replace_variable_terms ts vm ar = .ok ts' →
      ∀ t ∈ ts', t ∉ vm.map (fun x => x.1) := by
  intro ts
  induction ts with
  | nil =>
    intro ts' h
    simp only [replace_variable_terms] at h
    injection h with h
    subst h
    simp
  | cons t0 rest ih =>
    intro ts' h
    have step : ∀ (nt : Term) (ts1 : List Term),
        replace_variable_terms rest vm ar = .ok ts1 →
        ts' = nt :: ts1 → nt ∉ vm.map (fun x => x.1) →
        ∀ t ∈ ts', t ∉ vm.map (fun x => x.1) := by
      intro nt ts1 hr hts hnt t ht
      subst hts
      rcases List.mem_cons.1 ht with rfl | ht
      · exact hnt
      · exact ih ts1 hr t ht
    cases t0 with
    | const n =>
      simp only [replace_variable_terms] at h
      cases hr : replace_variable_terms rest vm ar with
      | error e =>
        rw [hr] at h
        simp [pure, Except.pure, except_bind_ok, except_bind_error,
          Except.bind] at h
      | ok ts1 =>
        rw [hr] at h
        simp only [pure, Except.pure, except_bind_ok, Except.bind] at h
        injection h with h
        exact step (Term.const n) ts1 hr h.symm
          (notKey_of_not_var hkeys _ (fun v hv => by cases hv))
    | var n =>
      simp only [replace_variable_terms] at h
      cases hl : pyDictGet vm (Term.var n) with
      | none =>
        rw [hl] at h
        cases hr : replace_variable_terms rest vm ar with
        | error e =>
          rw [hr] at h
          simp [pure, Except.pure, except_bind_ok, except_bind_error,
            Except.bind] at h
        | ok ts1 =>
          rw [hr] at h
          simp only [pure, Except.pure, except_bind_ok, Except.bind] at h
          injection h with h
          exact step (Term.var n) ts1 hr h.symm
            (notKey_of_lookup_none _ hl)
      | some pname =>
        rw [hl] at h
        cases hr : replace_variable_terms rest vm ar with
        | error e =>
          rw [hr] at h
          simp [pure, Except.pure, except_bind_ok, except_bind_error,
            Except.bind] at h
        | ok ts1 =>
          rw [hr] at h
          simp only [pure, Except.pure, except_bind_ok, Except.bind] at h
          injection h with h
          exact step _ ts1 hr h.symm
            (notKey_of_not_var hkeys _ (fun v hv => by cases hv))
    | quote q v =>
      simp only [replace_variable_terms] at h
      split at h
      · cases hr : replace_variable_terms rest vm ar with
        | error e =>
          rw [hr] at h
          simp [pure, Except.pure, except_bind_ok, except_bind_error,
            Except.bind] at h
        | ok ts1 =>
          rw [hr] at h
          simp only [pure, Except.pure, except_bind_ok, Except.bind] at h
          injection h with h
          exact step (Term.quote q v) ts1 hr h.symm
            (notKey_of_not_var hkeys _ (fun v' hv => by cases hv))
      · rename_i groups hm
        split at h
        · simp [except_bind_error, Except.bind] at h
        · rename_i pname hl
          split at h
          · cases hr : replace_variable_terms rest vm ar with
            | error e =>
              rw [hr] at h
              simp [pure, Except.pure, except_bind_ok, except_bind_error,
                Except.bind] at h
            | ok ts1 =>
              rw [hr] at h
              simp only [pure, Except.pure, except_bind_ok,
                Except.bind] at h
              injection h with h
              exact step _ ts1 hr h.symm
                (notKey_of_not_var hkeys _ (fun v' hv => by cases hv))
          · split at h
            · cases hr : replace_variable_terms rest vm ar with
              | error e =>
                rw [hr] at h
                simp [pure, Except.pure, except_bind_ok, except_bind_error,
                  Except.bind] at h
              | ok ts1 =>
                rw [hr] at h
                simp only [pure, Except.pure, except_bind_ok,
                  Except.bind] at h
                injection h with h
                exact step _ ts1 hr h.symm
                  (notKey_of_not_var hkeys _ (fun v' hv => by cases hv))
            · simp [except_bind_error, Except.bind] at h

theorem mkAtomFromPy_terms (s : Option String) (p : Predicate)
    (ts : List Term) : (mkAtomFromPy s p ts).terms = ts := by
  cases s <;> rfl

theorem foldlM_inv {α β : Type} (step : List β → α → Except PyErr (List β))
    (P : β → Prop)
    (hstep : ∀ acc x res, step acc x = .ok res → ∀ c ∈ res, c ∈ acc ∨ P c) :
    ∀ (xs : List α) (acc0 res : List β),
      xs.foldlM step acc0 = .ok res → ∀ c ∈ res, c ∈ acc0 ∨ P c := by
  intro xs
  induction xs with
  | nil =>
    intro acc0 res h
    simp only [List.foldlM_nil, pure, Except.pure] at h
    injection h with h
    subst h
    exact fun c hc => Or.inl hc
  | cons x rest ih =>
    intro acc0 res h
    rw [List.foldlM_cons] at h
    cases hs : step acc0 x with
    | error e =>
      rw [hs] at h
      simp [except_bind_error, Except.bind] at h
    | ok acc1 =>
      rw [hs] at h
      simp only [except_bind_ok, Except.bind] at h
      intro c hc
      rcases ih acc1 res h c hc with h1 | h1
      · exact hstep acc0 x acc1 hs c h1
      · exact Or.inr h1

theorem asc_ok (sub : List (Predicate × String)) (vm : List (Term × String))
    (ar : List (Term × Int)) (hkeys : ∀ x ∈ vm, ∃ v, x.1 = Term.var v)
    (clause : HornClause) (hc' : HornClause)
    (h : applySubstitutionToClause sub vm ar clause = .ok hc') :
    (∀ t ∈ hc'.head.terms, t ∉ vm.map (fun x => x.1)) ∧
    (∀ l ∈ hc'.body, (∀ t ∈ l.terms, t ∉ vm.map (fun x => x.1)) ∧
      l.atom ≠ TRUE_ATOM) := by
  unfold applySubstitutionToClause at h
  cases hf : clause.body.foldlM
      (fun acc literal => do
        let newTerms ← replace_variable_terms
          (literal.terms.filter (fun t => (pyDictGet vm t).isNone)) vm ar
        if mkAtomFromPy (pyDictGet sub literal.predicate)
            literal.predicate newTerms = TRUE_ATOM then pure acc
        else
          pure (acc ++ [Literal.mk
            (mkAtomFromPy (pyDictGet sub literal.predicate)
              literal.predicate newTerms) literal.negated]))
      [] with
  | error e =>
    rw [hf] at h
    simp [except_bind_error, Except.bind] at h
  | ok nb =>
    rw [hf] at h
    simp only [except_bind_ok, Except.bind, pure, Except.pure] at h
    injection h with h
    subst h
    constructor
    · intro t ht
      rw [mkAtomFromPy_terms] at ht
      simp only [List.mem_filter] at ht
      exact notKey_of_lookup_none t (Option.isNone_iff_eq_none.1 ht.2)
    · have hstep : ∀ (acc : List Literal) (x : Literal)
          (res : List Literal),
          (do
            let newTerms ← replace_variable_terms
              (x.terms.filter (fun t => (pyDictGet vm t).isNone)) vm ar
            if mkAtomFromPy (pyDictGet sub x.predicate)
                x.predicate newTerms = TRUE_ATOM then pure acc
            else
              pure (acc ++ [Literal.mk
                (mkAtomFromPy (pyDictGet sub x.predicate)
                  x.predicate newTerms) x.negated])) = Except.ok res →
          ∀ l ∈ res, l ∈ acc ∨
            ((∀ t ∈ l.terms, t ∉ vm.map (fun x => x.1)) ∧
              l.atom ≠ TRUE_ATOM) := by
        intro acc x res hs
        cases hrv : replace_variable_terms
            (x.terms.filter (fun t => (pyDictGet vm t).isNone)) vm ar with
        | error e =>
          rw [hrv] at hs
          simp [except_bind_error, Except.bind] at hs
        | ok nt =>
          rw [hrv] at hs
          simp only [except_bind_ok, Except.bind] at hs
          split at hs
          · simp only [pure, Except.pure] at hs
            injection hs with hs
            subst hs
            exact fun l hl => Or.inl hl
          · rename_i hne
            simp only [pure, Except.pure] at hs
            injection hs with hs
            subst hs
            intro l hl
            rcases List.mem_append.1 hl with hl | hl
            · exact Or.inl hl
            · simp only [List.mem_singleton] at hl
              subst hl
              refine Or.inr ⟨?_, hne⟩
              intro t ht
              simp only [Literal.terms] at ht
              rw [mkAtomFromPy_terms] at ht
              exact rvt_not_bound vm ar hkeys _ nt hrv t ht
      intro l hl
      rcases foldlM_inv _ _ hstep clause.body [] nb hf l hl with h1 | h1
      · simp at h1
      · exact h1

/-- C10: every clause returned by a successful
`MetaProgram.apply_substitution` has argument lists free of every Variable
term bound by the substitution (such terms are filtered from heads and
bodies and replaced by quoted references in builtin facts), and no body
atom of a returned Horn clause is syntactically the universal true atom. -/
theorem c10_apply_substitution (mp : MetaProgram)
    (sub : List (Predicate × String)) (prog : List Clause)
    (h : mp.apply_substitution sub = .ok prog) :
    ∀ c ∈ prog,
      (∀ t ∈ clauseArgTerms c, t ∉ boundVariableKeys sub) ∧
      (∀ hc, c = Clause.horn hc → ∀ l ∈ hc.body, l.atom ≠ TRUE_ATOM) := by
  have hkeys : ∀ x ∈ substitutionVarMap sub, ∃ v, x.1 = Term.var v := by
    intro x hx
    simp only [substitutionVarMap, List.mem_map] at hx
    obtain ⟨tr, htr, rfl⟩ := hx
    exact triples_keys_var sub tr htr
  have hkeysEq : (substitutionVarMap sub).map (fun x => x.1) =
      boundVariableKeys sub := by
    simp only [substitutionVarMap, boundVariableKeys, List.map_map]
    rfl
  unfold MetaProgram.apply_substitution at h
  have hstep1 : ∀ (acc : List Clause) (x : HornClause) (res : List Clause),
      (do
        let c ← applySubstitutionToClause sub (substitutionVarMap sub)
          (substitutionArities sub) x
        pure (addUnique acc (Clause.horn c))) = Except.ok res →
      ∀ c ∈ res, c ∈ acc ∨
        ((∀ t ∈ clauseArgTerms c, t ∉ boundVariableKeys sub) ∧
          (∀ hc, c = Clause.horn hc → ∀ l ∈ hc.body, l.atom ≠ TRUE_ATOM)) := by
    intro acc x res hs
    cases ha : applySubstitutionToClause sub (substitutionVarMap sub)
        (substitutionArities sub) x with
    | error e =>
      rw [ha] at hs
      simp [except_bind_error, Except.bind] at hs
    | ok c' =>
      rw [ha] at hs
      simp only [except_bind_ok, Except.bind, pure, Except.pure] at hs
      injection hs with hs
      subst hs
      intro c hc
      rcases (addUnique_mem acc (Clause.horn c') c).1 hc with h1 | h1
      · exact Or.inl h1
      · subst h1
        obtain ⟨hh, hb⟩ := asc_ok sub (substitutionVarMap sub)
          (substitutionArities sub) hkeys x c' ha
        refine Or.inr ⟨?_, ?_⟩
        · intro t ht
          simp only [clauseArgTerms, List.mem_append, List.mem_flatMap] at ht
          rw [← hkeysEq]
          rcases ht with ht | ⟨l, hl, ht⟩
          · exact hh t ht
          · exact (hb l hl).1 t ht
        · intro hc' heq l hl
          injection heq with heq
          subst heq
          exact (hb l hl).2
  have hstep2 : ∀ (acc : List Clause) (x : Literal) (res : List Clause),
      (do
        let newTerms ← replace_variable_terms x.atom.terms
          (substitutionVarMap sub) (substitutionArities sub)
        pure (addUnique acc (Clause.atomC
          (mkAtomFromPy (pyDictGet sub x.atom.predicate)
            x.atom.predicate newTerms)))) = Except.ok res →
      ∀ c ∈ res, c ∈ acc ∨
        ((∀ t ∈ clauseArgTerms c, t ∉ boundVariableKeys sub) ∧
          (∀ hc, c = Clause.horn hc → ∀ l ∈ hc.body, l.atom ≠ TRUE_ATOM)) := by
    intro acc x res hs
    cases hrv : replace_variable_terms x.atom.terms
        (substitutionVarMap sub) (substitutionArities sub) with
    | error e =>
      rw [hrv] at hs
      simp [except_bind_error, Except.bind] at hs
    | ok nt =>
      rw [hrv] at hs
      simp only [except_bind_ok, Except.bind, pure, Except.pure] at hs
      injection hs with hs
      subst hs
      intro c hc
      rcases (addUnique_mem acc _ c).1 hc with h1 | h1
      · exact Or.inl h1
      · subst h1
        refine Or.inr ⟨?_, ?_⟩
        · intro t ht
          simp only [clauseArgTerms] at ht
          rw [mkAtomFromPy_terms] at ht
          rw [← hkeysEq]
          exact rvt_not_bound (substitutionVarMap sub)
            (substitutionArities sub) hkeys _ nt hrv t ht
        · intro hc' heq
          cases heq
  cases hf1 : mp.clauses.foldlM
      (fun acc clause => do
        let c ← applySubstitutionToClause sub (substitutionVarMap sub)
          (substitutionArities sub) clause
        pure (addUnique acc (Clause.horn c)))
      [] with
  | error e =>
    rw [hf1] at h
    simp [except_bind_error, Except.bind] at h
  | ok fromClauses =>
    rw [hf1] at h
    simp only [except_bind_ok, Except.bind] at h
    intro c hc
    rcases foldlM_inv _ _ hstep2 mp.builtin_facts fromClauses prog h c hc with
      h1 | h1
    · rcases foldlM_inv _ _ hstep1 mp.clauses [] fromClauses hf1 c h1 with
        h2 | h2
      · simp at h2
      · exact h2
    · exact h1

/-- C10 witness: the theorem applied to a concrete meta program whose head
carries the bound variable `Q` as an argument term. -/
theorem c10_witness :
    fxMP10.apply_substitution fxSub10 = .ok fxProg10 ∧
    (∀ t ∈ clauseArgTerms (Clause.horn
        ⟨⟨⟨"foo", 1⟩, [fxVarX]⟩, [⟨⟨⟨"bar", 1⟩, [fxVarX]⟩, false⟩]⟩),
      t ∉ boundVariableKeys fxSub10) :=
  ⟨by decide,
   (c10_apply_substitution fxMP10 fxSub10 fxProg10 (by decide) _
     (by decide)).1⟩

theorem programsLoop_threshold {Inf Score : Type}
    (ctx : LearningCtx Inf Score) (rl : RevisionLeaf) (targets : List Atom)
    (thr : Rat)
    (etf : List Clause → RevisionLeaf → List Atom →
      Except PyErr (Option Theory)) :
    ∀ (progs : List (List Clause)) (bE : Score) (bT : Option Theory),
      programsLoop ctx rl targets (some thr) etf progs bE bT =
        match firstAboveThreshold ctx rl targets thr etf bE progs with
        | .error e => .error e
        | .ok (some t) => .ok (.inl t)
        | .ok none => .ok (.inr (bE, bT)) := by
  intro progs
  induction progs with
  | nil => intro bE bT; rfl
  | cons p rest ih =>
    intro bE bT
    by_cases hp : progAdmissible p = true
    · cases he : etf p rl targets with
      | error e =>
        simp [programsLoop, firstAboveThreshold, hp, he, except_bind_error,
          Except.bind]
      | ok ct =>
        cases ct with
        | none =>
          simp [programsLoop, firstAboveThreshold, hp, he, except_bind_ok,
            Except.bind, ih]
        | some t =>
          cases hev : ctx.evaluate_theory targets t with
          | error e =>
            simp [programsLoop, firstAboveThreshold, hp, he, hev,
              except_bind_error, except_bind_ok, Except.bind]
          | ok ev =>
            by_cases hcmp : thr < ctx.compare ev bE
            · simp [programsLoop, firstAboveThreshold, hp, he, hev, hcmp,
                except_bind_ok, Except.bind, pure, Except.pure]
            · simp [programsLoop, firstAboveThreshold, hp, he, hev, hcmp,
                except_bind_ok, Except.bind, ih]
    · simp [programsLoop, firstAboveThreshold, hp, ih]

theorem nodesLoop_threshold {Inf Score : Type} (ctx : LearningCtx Inf Score)
    (fs : FieldState) (rl : RevisionLeaf) (targets : List Atom) (thr : Rat)
    (etf : List Clause → RevisionLeaf → List Atom →
      Except PyErr (Option Theory)) (cleanGen : PredicateGenerator) :
    ∀ (ns : List SLDNode) (bE : Score) (bT : Option Theory),
      nodesLoop ctx fs rl targets (some thr) etf cleanGen ns bE bT =
        match firstAboveThresholdNodes ctx fs rl targets thr etf cleanGen
            bE ns with
        | .error e => .error e
        | .ok (some t) => .ok (.inl t)
        | .ok none => .ok (.inr (bE, bT)) := by
  intro ns
  induction ns with
  | nil => intro bE bT; rfl
  | cons n rest ih =>
    intro bE bT
    cases hc : createMetaProgram (extract_meta_program n)
        fs.generic_trainable_predicates with
    | error e =>
      simp [nodesLoop, firstAboveThresholdNodes, hc, except_bind_error,
        Except.bind]
    | ok mp =>
      rcases hfop : mp.first_order_programs fs.logic_predicates
          cleanGen.clean_copy with ⟨programs, fopErr⟩
      have hpl := programsLoop_threshold ctx rl targets thr etf programs bE bT
      cases hfa : firstAboveThreshold ctx rl targets thr etf bE programs with
      | error e =>
        rw [hfa] at hpl
        simp [nodesLoop, firstAboveThresholdNodes, hc, hfop, hpl, hfa,
          except_bind_ok, except_bind_error, Except.bind]
      | ok r =>
        rw [hfa] at hpl
        cases r with
        | some t =>
          simp [nodesLoop, firstAboveThresholdNodes, hc, hfop, hpl, hfa,
            except_bind_ok, Except.bind, pure, Except.pure]
        | none =>
          cases fopErr with
          | some e =>
            simp [nodesLoop, firstAboveThresholdNodes, hc, hfop, hpl, hfa,
              except_bind_ok, Except.bind]
          | none =>
            simp [nodesLoop, firstAboveThresholdNodes, hc, hfop, hpl, hfa,
              except_bind_ok, Except.bind, ih]

theorem revise_node_threshold {Inf Score : Type}
    (ctx : LearningCtx Inf Score) (fs : FieldState) (targetAtom : Atom)
    (targets : List Atom) (thr : Rat)
    (etf : List Clause → RevisionLeaf → List Atom →
      Except PyErr (Option Theory)) :
    revise_node ctx fs targetAtom targets (some thr) etf =
      (do
        let inferred ← ctx.infer_examples targets none
        let currentEvaluation ← ctx.compute_metric targets inferred
        match apply_higher_order_program ctx.meta_clauses ctx.maximum_depth
            targetAtom with
        | (nodes, genErr) =>
          match ← firstAboveThresholdNodes ctx fs ctx.get_revision_leaf
              targets thr etf ⟨fs.avoid_predicates, 0⟩ currentEvaluation
              nodes with
          | some t => pure (some t)
          | none =>
            match genErr with
            | some e => Except.error e
            | none => pure none) := by
  unfold revise_node
  cases hinf : ctx.infer_examples targets none with
  | error e => simp [except_bind_error, Except.bind]
  | ok inf =>
    simp only [except_bind_ok, Except.bind]
    cases hm : ctx.compute_metric targets inf with
    | error e => simp [except_bind_error, Except.bind]
    | ok cE =>
      simp only [except_bind_ok, Except.bind]
      rcases hA : apply_higher_order_program ctx.meta_clauses
          ctx.maximum_depth targetAtom with ⟨nodes, genErr⟩
      have hnl := nodesLoop_threshold ctx fs ctx.get_revision_leaf targets
        thr etf ⟨fs.avoid_predicates, 0⟩ nodes cE none
      cases hfn : firstAboveThresholdNodes ctx fs ctx.get_revision_leaf
          targets thr etf ⟨fs.avoid_predicates, 0⟩ cE nodes with
      | error e =>
        rw [hfn] at hnl
        simp [hnl, except_bind_error, except_bind_ok, Except.bind]
      | ok r =>
        rw [hfn] at hnl
        cases r with
        | some t =>
          simp [hnl, except_bind_ok, Except.bind, pure, Except.pure]
        | none =>
          cases genErr with
          | some e => simp [hnl, except_bind_ok, Except.bind]
          | none => simp [hnl, except_bind_ok, Except.bind, pure, Except.pure]

theorem bpftProgramsLoop_threshold {Inf Score : Type}
    (ctx : LearningCtx Inf Score) (targets : List Atom) (thr : Rat) :
    ∀ (progs : List (List Clause)) (bE : Score)
      (bP : Option (List Clause)),
      bpftProgramsLoop ctx targets (some thr) progs bE bP =
        match bpftFirstAboveThreshold ctx targets thr bE progs with
        | .error e => .error e
        | .ok (some p) => .ok (.inl p)
        | .ok none => .ok (.inr (bE, bP)) := by
  intro progs
  induction progs with
  | nil => intro bE bP; rfl
  | cons p rest ih =>
    intro bE bP
    match p with
    | [] => simp [bpftProgramsLoop, bpftFirstAboveThreshold, ih]
    | Clause.atomC a :: progRest =>
      simp [bpftProgramsLoop, bpftFirstAboveThreshold, ih]
    | Clause.horn fc :: progRest =>
      cases hev : ctx.evaluate_theory_appending targets
          (addAllUnique
            [Clause.horn (ctx.apply_clause_modifiers fc targets)]
            progRest) with
      | error e =>
        simp [bpftProgramsLoop, bpftFirstAboveThreshold, hev,
          except_bind_error, Except.bind]
      | ok ev =>
        by_cases hcmp : thr < ctx.compare ev bE
        · simp [bpftProgramsLoop, bpftFirstAboveThreshold, hev, hcmp,
            except_bind_ok, Except.bind, pure, Except.pure]
        · simp [bpftProgramsLoop, bpftFirstAboveThreshold, hev, hcmp,
            except_bind_ok, Except.bind, ih]

theorem bpftNodesLoop_threshold {Inf Score : Type}
    (ctx : LearningCtx Inf Score) (fs : FieldState) (targets : List Atom)
    (thr : Rat) (cleanGen : PredicateGenerator) :
    ∀ (ns : List SLDNode) (bE : Score) (bP : Option (List Clause)),
      bpftNodesLoop ctx fs targets (some thr) cleanGen ns bE bP =
        match bpftFirstAboveThresholdNodes ctx fs targets thr cleanGen bE
            ns with
        | .error e => .error e
        | .ok (some p) => .ok (.inl p)
        | .ok none => .ok (.inr (bE, bP)) := by
  intro ns
  induction ns with
  | nil => intro bE bP; rfl
  | cons n rest ih =>
    intro bE bP
    cases hc : createMetaProgram (extract_meta_program n)
        fs.generic_trainable_predicates with
    | error e =>
      simp [bpftNodesLoop, bpftFirstAboveThresholdNodes, hc,
        except_bind_error, Except.bind]
    | ok mp =>
      rcases hfop : mp.first_order_programs fs.logic_predicates
          cleanGen.clean_copy with ⟨programs, fopErr⟩
      have hpl := bpftProgramsLoop_threshold ctx targets thr programs bE bP
      cases hfa : bpftFirstAboveThreshold ctx targets thr bE programs with
      | error e =>
        rw [hfa] at hpl
        simp [bpftNodesLoop, bpftFirstAboveThresholdNodes, hc, hfop, hpl,
          hfa, except_bind_ok, except_bind_error, Except.bind]
      | ok r =>
        rw [hfa] at hpl
        cases r with
        | some p =>
          simp [bpftNodesLoop, bpftFirstAboveThresholdNodes, hc, hfop, hpl,
            hfa, except_bind_ok, Except.bind, pure, Except.pure]
        | none =>
          cases fopErr with
          | some e =>
            simp [bpftNodesLoop, bpftFirstAboveThresholdNodes, hc, hfop,
              hpl, hfa, except_bind_ok, Except.bind]
          | none =>
            simp [bpftNodesLoop, bpftFirstAboveThresholdNodes, hc, hfop,
              hpl, hfa, except_bind_ok, Except.bind, ih]

theorem bpft_threshold {Inf Score : Type} (ctx : LearningCtx Inf Score)
    (fs : FieldState) (targetAtom : Atom) (examples : List Atom)
    (currentEvaluation : Score) (thr : Rat) :
    build_program_from_target ctx fs targetAtom examples currentEvaluation
        (some thr) =
      (match apply_higher_order_program ctx.meta_clauses ctx.maximum_depth
          targetAtom with
      | (nodes, genErr) => do
        match ← bpftFirstAboveThresholdNodes ctx fs examples thr
            ⟨fs.avoid_predicates, 0⟩ currentEvaluation nodes with
        | some p => pure (some p)
        | none =>
          match genErr with
          | some e => Except.error e
          | none => pure none) := by
  unfold build_program_from_target
  rcases hA : apply_higher_order_program ctx.meta_clauses ctx.maximum_depth
      targetAtom with ⟨nodes, genErr⟩
  have hnl := bpftNodesLoop_threshold ctx fs examples thr
    ⟨fs.avoid_predicates, 0⟩ nodes currentEvaluation none
  cases hfn : bpftFirstAboveThresholdNodes ctx fs examples thr
      ⟨fs.avoid_predicates, 0⟩ currentEvaluation nodes with
  | error e =>
    rw [hfn] at hnl
    simp [hnl, hfn, except_bind_error, except_bind_ok, Except.bind]
  | ok r =>
    rw [hfn] at hnl
    cases r with
    | some p =>
      simp [hnl, hfn, except_bind_ok, Except.bind, pure, Except.pure]
    | none =>
      cases genErr with
      | some e => simp [hnl, hfn, except_bind_ok, Except.bind]
      | none =>
        simp [hnl, hfn, except_bind_ok, Except.bind, pure, Except.pure]

theorem programsLoop_none_no_early {Inf Score : Type}
    (ctx : LearningCtx Inf Score) (rl : RevisionLeaf) (targets : List Atom)
    (etf : List Clause → RevisionLeaf → List Atom →
      Except PyErr (Option Theory)) :
    ∀ (progs : List (List Clause)) (bE : Score) (bT : Option Theory)
      (t : Theory),
      programsLoop ctx rl targets none etf progs bE bT ≠
        .ok (.inl t) := by
  intro progs
  induction progs with
  | nil => intro bE bT t h; exact absurd h (by simp [programsLoop])
  | cons p rest ih =>
    intro bE bT t h
    by_cases hp : progAdmissible p = true
    · cases he : etf p rl targets with
      | error e =>
        simp [programsLoop, hp, he, except_bind_error, Except.bind] at h
      | ok ct =>
        cases ct with
        | none =>
          simp [programsLoop, hp, he, except_bind_ok, Except.bind] at h
          exact ih bE bT t h
        | some curT =>
          cases hev : ctx.evaluate_theory targets curT with
          | error e =>
            simp [programsLoop, hp, he, hev, except_bind_ok,
              except_bind_error, Except.bind] at h
          | ok ev =>
            by_cases hcmp : 0 < ctx.compare ev bE
            · simp [programsLoop, hp, he, hev, hcmp, except_bind_ok,
                Except.bind] at h
              exact ih ev (some curT) t h
            · simp [programsLoop, hp, he, hev, hcmp, except_bind_ok,
                Except.bind] at h
              exact ih bE bT t h
    · simp [programsLoop, hp] at h
      exact ih bE bT t h

theorem nodesLoop_none_no_early {Inf Score : Type}
    (ctx : LearningCtx Inf Score) (fs : FieldState) (rl : RevisionLeaf)
    (targets : List Atom)
    (etf : List Clause → RevisionLeaf → List Atom →
      Except PyErr (Option Theory)) (cleanGen : PredicateGenerator) :
    ∀ (ns : List SLDNode) (bE : Score) (bT : Option Theory) (t : Theory),
      nodesLoop ctx fs rl targets none etf cleanGen ns bE bT ≠
        .ok (.inl t) := by
  intro ns
  induction ns with
  | nil => intro bE bT t h; exact absurd h (by simp [nodesLoop])
  | cons n rest ih =>
    intro bE bT t h
    cases hc : createMetaProgram (extract_meta_program n)
        fs.generic_trainable_predicates with
    | error e =>
      simp [nodesLoop, hc, except_bind_error, Except.bind] at h
    | ok mp =>
      rcases hfop : mp.first_order_programs fs.logic_predicates
          cleanGen.clean_copy with ⟨programs, fopErr⟩
      cases hpl : programsLoop ctx rl targets none etf programs bE bT with
      | error e =>
        simp [nodesLoop, hc, hfop, hpl, except_bind_ok, except_bind_error,
          Except.bind] at h
      | ok r =>
        cases r with
        | inl t' =>
          exact programsLoop_none_no_early ctx rl targets etf programs bE
            bT t' hpl
        | inr pr =>
          rcases pr with ⟨bE', bT'⟩
          cases fopErr with
          | some e =>
            simp [nodesLoop, hc, hfop, hpl, except_bind_ok,
              Except.bind] at h
          | none =>
            simp [nodesLoop, hc, hfop, hpl, except_bind_ok,
              Except.bind] at h
            exact ih bE' bT' t h

theorem bpftProgramsLoop_none_no_early {Inf Score : Type}
    (ctx : LearningCtx Inf Score) (targets : List Atom) :
    ∀ (progs : List (List Clause)) (bE : Score)
      (bP : Option (List Clause)) (p : List Clause),
      bpftProgramsLoop ctx targets none progs bE bP ≠ .ok (.inl p) := by
  intro progs
  induction progs with
  | nil => intro bE bP p h; exact absurd h (by simp [bpftProgramsLoop])
  | cons q rest ih =>
    intro bE bP p h
    match q with
    | [] =>
      simp [bpftProgramsLoop] at h
      exact ih bE bP p h
    | Clause.atomC a :: progRest =>
      simp [bpftProgramsLoop] at h
      exact ih bE bP p h
    | Clause.horn fc :: progRest =>
      cases hev : ctx.evaluate_theory_appending targets
          (addAllUnique
            [Clause.horn (ctx.apply_clause_modifiers fc targets)]
            progRest) with
      | error e =>
        simp [bpftProgramsLoop, hev, except_bind_error, Except.bind] at h
      | ok ev =>
        by_cases hcmp : 0 < ctx.compare ev bE
        · simp [bpftProgramsLoop, hev, hcmp, except_bind_ok,
            Except.bind] at h
          exact ih ev _ p h
        · simp [bpftProgramsLoop, hev, hcmp, except_bind_ok,
            Except.bind] at h
          exact ih bE bP p h

theorem bpftNodesLoop_none_no_early {Inf Score : Type}
    (ctx : LearningCtx Inf Score) (fs : FieldState) (targets : List Atom)
    (cleanGen : PredicateGenerator) :
    ∀ (ns : List SLDNode) (bE : Score) (bP : Option (List Clause))
      (p : List Clause),
      bpftNodesLoop ctx fs targets none cleanGen ns bE bP ≠
        .ok (.inl p) := by
  intro ns
  induction ns with
  | nil => intro bE bP p h; exact absurd h (by simp [bpftNodesLoop])
  | cons n rest ih =>
    intro bE bP p h
    cases hc : createMetaProgram (extract_meta_program n)
        fs.generic_trainable_predicates with
    | error e =>
      simp [bpftNodesLoop, hc, except_bind_error, Except.bind] at h
    | ok mp =>
      rcases hfop : mp.first_order_programs fs.logic_predicates
          cleanGen.clean_copy with ⟨programs, fopErr⟩
      cases hpl : bpftProgramsLoop ctx targets none programs bE bP with
      | error e =>
        simp [bpftNodesLoop, hc, hfop, hpl, except_bind_ok,
          except_bind_error, Except.bind] at h
      | ok r =>
        cases r with
        | inl p' =>
          exact bpftProgramsLoop_none_no_early ctx targets programs bE bP
            p' hpl
        | inr pr =>
          rcases pr with ⟨bE', bP'⟩
          cases fopErr with
          | some e =>
            simp [bpftNodesLoop, hc, hfop, hpl, except_bind_ok,
              Except.bind] at h
          | none =>
            simp [bpftNodesLoop, hc, hfop, hpl, except_bind_ok,
              Except.bind] at h
            exact ih bE' bP' p h

theorem programsLoop_none_tie {Inf Score : Type}
    (ctx : LearningCtx Inf Score) (rl : RevisionLeaf) (targets : List Atom)
    (etf : List Clause → RevisionLeaf → List Atom →
      Except PyErr (Option Theory))
    (p1 p2 : List Clause) (t1 t2 : Theory) (e1 e2 bE : Score)
    (hp1 : progAdmissible p1 = true)
    (he1 : etf p1 rl targets = .ok (some t1))
    (hev1 : ctx.evaluate_theory targets t1 = .ok e1)
    (himp1 : 0 < ctx.compare e1 bE)
    (hp2 : progAdmissible p2 = true)
    (he2 : etf p2 rl targets = .ok (some t2))
    (hev2 : ctx.evaluate_theory targets t2 = .ok e2)
    (himp2 : ¬ 0 < ctx.compare e2 e1) :
    programsLoop ctx rl targets none etf [p1, p2] bE none =
      .ok (.inr (e1, some t1)) := by
  simp [programsLoop, hp1, he1, hev1, himp1, hp2, he2, hev2, himp2,
    except_bind_ok, Except.bind, pure, Except.pure]

theorem programsLoop_none_improves {Inf Score : Type}
    (ctx : LearningCtx Inf Score) (rl : RevisionLeaf) (targets : List Atom)
    (etf : List Clause → RevisionLeaf → List Atom →
      Except PyErr (Option Theory))
    (p1 p2 : List Clause) (t1 t2 : Theory) (e1 e2 bE : Score)
    (hp1 : progAdmissible p1 = true)
    (he1 : etf p1 rl targets = .ok (some t1))
    (hev1 : ctx.evaluate_theory targets t1 = .ok e1)
    (himp1 : 0 < ctx.compare e1 bE)
    (hp2 : progAdmissible p2 = true)
    (he2 : etf p2 rl targets = .ok (some t2))
    (hev2 : ctx.evaluate_theory targets t2 = .ok e2)
    (himp2 : 0 < ctx.compare e2 e1) :
    programsLoop ctx rl targets none etf [p1, p2] bE none =
      .ok (.inr (e2, some t2)) := by
  simp [programsLoop, hp1, he1, hev1, himp1, hp2, he2, hev2, himp2,
    except_bind_ok, Except.bind, pure, Except.pure]

/-- C8: in both `revise_node` and `build_program_from_target`, when a
minimum-improvement threshold is configured the search equals the
find-first functions, which return the first enumerated candidate whose
improvement over the current evaluation exceeds the threshold and never
evaluate a later candidate; when no threshold is configured the candidate
loops never return early, and the best-scoring candidate is kept with ties
broken by enumeration order: a second candidate that does not strictly
improve on the first's score is discarded, while a strictly improving one
replaces it. -/
theorem c8_threshold_first_found_best :
    (∀ (Inf Score : Type) (ctx : LearningCtx Inf Score) (fs : FieldState)
        (targetAtom : Atom) (targets : List Atom) (thr : Rat)
        (etf : List Clause → RevisionLeaf → List Atom →
          Except PyErr (Option Theory)),
      revise_node ctx fs targetAtom targets (some thr) etf =
        (do
          let inferred ← ctx.infer_examples targets none
          let currentEvaluation ← ctx.compute_metric targets inferred
          match apply_higher_order_program ctx.meta_clauses
              ctx.maximum_depth targetAtom with
          | (nodes, genErr) =>
            match ← firstAboveThresholdNodes ctx fs ctx.get_revision_leaf
                targets thr etf ⟨fs.avoid_predicates, 0⟩ currentEvaluation
                nodes with
            | some t => pure (some t)
            | none =>
              match genErr with
              | some e => Except.error e
              | none => pure none)) ∧
    (∀ (Inf Score : Type) (ctx : LearningCtx Inf Score) (fs : FieldState)
        (targetAtom : Atom) (examples : List Atom)
        (currentEvaluation : Score) (thr : Rat),
      build_program_from_target ctx fs targetAtom examples
          currentEvaluation (some thr) =
        (match apply_higher_order_program ctx.meta_clauses
            ctx.maximum_depth targetAtom with
        | (nodes, genErr) => do
          match ← bpftFirstAboveThresholdNodes ctx fs examples thr
              ⟨fs.avoid_predicates, 0⟩ currentEvaluation nodes with
          | some p => pure (some p)
          | none =>
            match genErr with
            | some e => Except.error e
            | none => pure none)) ∧
    (∀ (Inf Score : Type) (ctx : LearningCtx Inf Score) (fs : FieldState)
        (rl : RevisionLeaf) (targets : List Atom)
        (etf : List Clause → RevisionLeaf → List Atom →
          Except PyErr (Option Theory)) (cleanGen : PredicateGenerator)
        (ns : List SLDNode) (bE : Score) (bT : Option Theory) (t : Theory),
      nodesLoop ctx fs rl targets none etf cleanGen ns bE bT ≠
        .ok (.inl t)) ∧
    (∀ (Inf Score : Type) (ctx : LearningCtx Inf Score) (fs : FieldState)
        (targets : List Atom) (cleanGen : PredicateGenerator)
        (ns : List SLDNode) (bE : Score) (bP : Option (List Clause))
        (p : List Clause),
      bpftNodesLoop ctx fs targets none cleanGen ns bE bP ≠
        .ok (.inl p)) ∧
    (∀ (Inf Score : Type) (ctx : LearningCtx Inf Score) (rl : RevisionLeaf)
        (targets : List Atom)
        (etf : List Clause → RevisionLeaf → List Atom →
          Except PyErr (Option Theory))
        (p1 p2 : List Clause) (t1 t2 : Theory) (e1 e2 bE : Score),
      progAdmissible p1 = true →
      etf p1 rl targets = .ok (some t1) →
      ctx.evaluate_theory targets t1 = .ok e1 →
      0 < ctx.compare e1 bE →
      progAdmissible p2 = true →
      etf p2 rl targets = .ok (some t2) →
      ctx.evaluate_theory targets t2 = .ok e2 →
      ¬ 0 < ctx.compare e2 e1 →
      programsLoop ctx rl targets none etf [p1, p2] bE none =
        .ok (.inr (e1, some t1))) ∧
    (∀ (Inf Score : Type) (ctx : LearningCtx Inf Score) (rl : RevisionLeaf)
        (targets : List Atom)
        (etf : List Clause → RevisionLeaf → List Atom →
          Except PyErr (Option Theory))
        (p1 p2 : List Clause) (t1 t2 : Theory) (e1 e2 bE : Score),
      progAdmissible p1 = true →
      etf p1 rl targets = .ok (some t1) →
      ctx.evaluate_theory targets t1 = .ok e1 →
      0 < ctx.compare e1 bE →
      progAdmissible p2 = true →
      etf p2 rl targets = .ok (some t2) →
      ctx.evaluate_theory targets t2 = .ok e2 →
      0 < ctx.compare e2 e1 →
      programsLoop ctx rl targets none etf [p1, p2] bE none =
        .ok (.inr (e2, some t2))) := by
  refine ⟨?_, ?_, ?_, ?_, ?_, ?_⟩
  · intro Inf Score ctx fs targetAtom targets thr etf
    exact revise_node_threshold ctx fs targetAtom targets thr etf
  · intro Inf Score ctx fs targetAtom examples currentEvaluation thr
    exact bpft_threshold ctx fs targetAtom examples currentEvaluation thr
  · intro Inf Score ctx fs rl targets etf cleanGen ns bE bT t
    exact nodesLoop_none_no_early ctx fs rl targets etf cleanGen ns bE bT t
  · intro Inf Score ctx fs targets cleanGen ns bE bP p
    exact bpftNodesLoop_none_no_early ctx fs targets cleanGen ns bE bP p
  · intro Inf Score ctx rl targets etf p1 p2 t1 t2 e1 e2 bE h1 h2 h3 h4 h5
      h6 h7 h8
    exact programsLoop_none_tie ctx rl targets etf p1 p2 t1 t2 e1 e2 bE
      h1 h2 h3 h4 h5 h6 h7 h8
  · intro Inf Score ctx rl targets etf p1 p2 t1 t2 e1 e2 bE h1 h2 h3 h4 h5
      h6 h7 h8
    exact programsLoop_none_improves ctx rl targets etf p1 p2 t1 t2 e1 e2
      bE h1 h2 h3 h4 h5 h6 h7 h8

/-- C8 witness: with a constant evaluator the first of two candidate
programs is kept and the second, tying, candidate is discarded. -/
theorem c8_witness :
    programsLoop fxCtxC8 fxLeaf [] none fxEtfC8 [fxProgA, fxProgB] 0 none =
      .ok (.inr (1, some ⟨fxProgA, [], [], []⟩)) :=
  c8_threshold_first_found_best.2.2.2.2.1 Unit Rat fxCtxC8 fxLeaf []
    fxEtfC8 fxProgA fxProgB ⟨fxProgA, [], [], []⟩ ⟨fxProgB, [], [], []⟩
    1 1 0 (by decide) (by decide) (by decide)
    (by norm_num [fxCtxC8, fxCtx]) (by decide) (by decide) (by decide)
    (by norm_num [fxCtxC8, fxCtx])
